import Mathlib

/-!
Verification development for `src/scientific_inkscape/text/font_properties.py`
(Academic-Inkscape).  The Python module resolves CSS-like styles to concrete
font faces through fontconfig, with per-character fallback, and extracts
normalized metrics and per-character shaping data through fontTools.

The relevant functions are shallowly embedded below:
* Python dicts become insertion-ordered association lists (`alookup`,
  `dictInsert`), matching CPython's iteration-order and overwrite semantics.
* Python exceptions (`KeyError`, `AttributeError`, `ValueError`) become an
  explicit `Except PyErr` result.
* Python true division of font design units becomes division in `ℚ`
  (exact, where the source uses binary floats).
* The opaque external services (libfontconfig's `font_match` / `font_sort`,
  fontTools' binary-table parsing) are modelled as explicit parameters
  (`FcEnv`) and plain data structures (`FTTables`, `SubFace`) holding the
  table contents the Python code reads.
-/

set_option maxRecDepth 8000

namespace FontProps

/-- Python exceptions that the embedded code can raise. -/
inductive PyErr where
  | keyError
  | attributeError
  | valueError
  deriving DecidableEq, Repr

/-- Lookup in an insertion-ordered association list (Python `d[k]` / `k in d`):
returns the value of the first binding of `k`. -/
def alookup {κ α : Type} [DecidableEq κ] (k : κ) : List (κ × α) → Option α
  | [] => none
  | (k', v) :: rest => if k' = k then some v else alookup k rest

/-- Python dict assignment `d[k] = v`: overwrite in place if the key is
present, else append at the end (CPython insertion order). -/
def dictInsert {κ α : Type} [DecidableEq κ] (k : κ) (v : α) : List (κ × α) → List (κ × α)
  | [] => [(k, v)]
  | (k', v') :: rest => if k' = k then (k, v) :: rest else (k', v') :: dictInsert k v rest

/-- The key list of an association list (Python `d.keys()`). -/
def keys {κ α : Type} (d : List (κ × α)) : List κ := d.map Prod.fst


/-! ### fontconfig constants

Actual numeric values from fontconfig's public header, as exposed by the
`fontconfig` Python bindings used in the source (`FC.WEIGHT_*`, `FC.SLANT_*`,
`FC.WIDTH_*`). -/

def WEIGHT_THIN : Int := 0
def WEIGHT_EXTRALIGHT : Int := 40
def WEIGHT_LIGHT : Int := 50
def WEIGHT_SEMILIGHT : Int := 55
def WEIGHT_BOOK : Int := 75
def WEIGHT_NORMAL : Int := 80
def WEIGHT_MEDIUM : Int := 100
def WEIGHT_SEMIBOLD : Int := 180
def WEIGHT_BOLD : Int := 200
def WEIGHT_ULTRABOLD : Int := 205
def WEIGHT_HEAVY : Int := 210
def WEIGHT_ULTRABLACK : Int := 215

def SLANT_ROMAN : Int := 0
def SLANT_ITALIC : Int := 100
def SLANT_OBLIQUE : Int := 110

def WIDTH_ULTRACONDENSED : Int := 50
def WIDTH_EXTRACONDENSED : Int := 63
def WIDTH_CONDENSED : Int := 75
def WIDTH_SEMICONDENSED : Int := 87
def WIDTH_NORMAL : Int := 100
def WIDTH_SEMIEXPANDED : Int := 113
def WIDTH_EXPANDED : Int := 125
def WIDTH_EXTRAEXPANDED : Int := 150
def WIDTH_ULTRAEXPANDED : Int := 200

/-! ### FontAttributeLookups tables (class `FontAttributeLookups`)

Only the uncommented entries of the source tables appear, in source order
(Python dicts preserve insertion order). -/

/-- `lu.CSSWGT_to_FCWGT`. -/
def CSSWGT_to_FCWGT : List (String × Int) :=
  [("normal", WEIGHT_NORMAL), ("bold", WEIGHT_BOLD),
   ("100", WEIGHT_THIN), ("200", WEIGHT_EXTRALIGHT), ("300", WEIGHT_LIGHT),
   ("400", WEIGHT_NORMAL), ("500", WEIGHT_MEDIUM), ("600", WEIGHT_SEMIBOLD),
   ("700", WEIGHT_BOLD), ("800", WEIGHT_ULTRABOLD), ("900", WEIGHT_HEAVY)]

/-- `lu.CSSSTY_to_FCSLN`. -/
def CSSSTY_to_FCSLN : List (String × Int) :=
  [("normal", SLANT_ROMAN), ("italic", SLANT_ITALIC), ("oblique", SLANT_OBLIQUE)]

/-- `lu.CSSSTR_to_FCWDT`. -/
def CSSSTR_to_FCWDT : List (String × Int) :=
  [("ultra-condensed", WIDTH_ULTRACONDENSED), ("extra-condensed", WIDTH_EXTRACONDENSED),
   ("condensed", WIDTH_CONDENSED), ("semi-condensed", WIDTH_SEMICONDENSED),
   ("normal", WIDTH_NORMAL), ("semi-expanded", WIDTH_SEMIEXPANDED),
   ("expanded", WIDTH_EXPANDED), ("extra-expanded", WIDTH_EXTRAEXPANDED),
   ("ultra-expanded", WIDTH_ULTRAEXPANDED)]

/-- `lu.FCWGT_to_CSSWGT` (Semi-Light, Book, Ultra-Black collapsed onto
neighboring tiers, as in the source). -/
def FCWGT_to_CSSWGT : List (Int × String) :=
  [(WEIGHT_THIN, "100"), (WEIGHT_EXTRALIGHT, "200"), (WEIGHT_LIGHT, "300"),
   (WEIGHT_SEMILIGHT, "300"), (WEIGHT_BOOK, "400"), (WEIGHT_NORMAL, "400"),
   (WEIGHT_MEDIUM, "500"), (WEIGHT_SEMIBOLD, "600"), (WEIGHT_BOLD, "700"),
   (WEIGHT_ULTRABOLD, "800"), (WEIGHT_HEAVY, "900"), (WEIGHT_ULTRABLACK, "900")]

/-- `lu.FCSLN_to_CSSSTY`. -/
def FCSLN_to_CSSSTY : List (Int × String) :=
  [(SLANT_ROMAN, "normal"), (SLANT_ITALIC, "italic"), (SLANT_OBLIQUE, "oblique")]

/-- `lu.FCWDT_to_CSSSTR`. -/
def FCWDT_to_CSSSTR : List (Int × String) :=
  [(WIDTH_ULTRACONDENSED, "ultra-condensed"), (WIDTH_EXTRACONDENSED, "extra-condensed"),
   (WIDTH_CONDENSED, "condensed"), (WIDTH_SEMICONDENSED, "semi-condensed"),
   (WIDTH_NORMAL, "normal"), (WIDTH_SEMIEXPANDED, "semi-expanded"),
   (WIDTH_EXPANDED, "expanded"), (WIDTH_EXTRAEXPANDED, "extra-expanded"),
   (WIDTH_ULTRAEXPANDED, "ultra-expanded")]

/-! ### `nearest_val` -/

/-- Python's `min(xs, key=f)` over a nonempty list `x :: ys`: scan left to
right, replacing the current minimum only on strict improvement, so the
first element attaining the minimum wins. -/
def pyMin (f : Int → Int) : Int → List Int → Int
  | x, [] => x
  | x, y :: ys => pyMin f (if f y < f x then y else x) ys

/-- `nearest_val(dictv, width_value)`:
`dictv[min(dictv.keys(), key=lambda x: abs(x - width_value))]`.
`none` models the `ValueError` Python raises for an empty dict. -/
def nearest_val {α : Type} (dictv : List (Int × α)) (q : Int) : Option α :=
  match keys dictv with
  | [] => none
  | k :: ks => alookup (pyMin (fun x => |x - q|) k ks) dictv

/-! ### Styles, fontconfig patterns and faces

`ReducedStyle` is the Style restricted to the four selection attributes
(`font-family`, `font-weight`, `font-style`, `font-stretch`), the input
contract of `FontConfig.get_true_font`.  Its cache key
`tuple(reducedsty.items())` is the four values in fixed order, i.e. the
structure itself. -/

structure ReducedStyle where
  family : String
  weight : String
  style : String
  stretch : String
  deriving DecidableEq, Repr

/-- The CSS descriptor built by `FontConfig.fcfound_to_css`: a `Style` with
exactly the four selection keys, in fixed insertion order, so
`tuple(style.items())` is again the structure itself. -/
structure CssStyle where
  family : String
  weight : String
  style : String
  stretch : String
  deriving DecidableEq, Repr

/-- A fontconfig property value as read by `found.get(prop, 0)[0]`: either a
scalar or (rarely) a tuple, which `fcfound_to_css` treats as ambiguous. -/
inductive FcProp (α : Type) where
  | scalar (a : α)
  | listval
  deriving DecidableEq, Repr

/-- A fontconfig found-pattern object, restricted to the properties the
source reads: FAMILY, WEIGHT, SLANT, WIDTH and CHARSET (the set of covered
code points, as `ord` values). -/
structure FcFace where
  family : FcProp String
  weight : FcProp Int
  slant : FcProp Int
  width : FcProp Int
  charset : List Nat
  deriving DecidableEq, Repr

/-- A fontconfig search pattern as built by `css_to_fc_pattern`:
`fc.Pattern.name_parse` on the quote-stripped family plus the three `pat.add`
calls.  (`re.escape` and the parse itself are fontconfig-internal; the name
pattern is modelled by the cleaned family string.) -/
structure FcPattern where
  family : String
  width : Int
  weight : Int
  slant : Int
  deriving DecidableEq, Repr

/-- The apostrophe character, written via its code point. -/
def squote : Char := Char.ofNat 39

/-- The double-quote character, written via its code point. -/
def dquote : Char := Char.ofNat 34

/-- Python `s.replace("'", "").replace('"', "")`: remove every quote. -/
def removeQuotes (s : String) : String :=
  String.mk (s.data.filter (fun c => ¬(c = squote ∨ c = dquote)))

/-- Python `s.strip("'")`: drop leading and trailing apostrophes. -/
def stripSQuotes (s : String) : String :=
  String.mk (((s.data.dropWhile (· = squote)).reverse.dropWhile (· = squote)).reverse)

/-- Python `"'" + s + "'"`. -/
def squoteWrap (s : String) : String :=
  String.mk (squote :: s.data ++ [squote])

/-- `FontConfig.css_to_fc_pattern(sty)`: name-parse the quote-stripped family
and add WIDTH/WEIGHT/SLANT from the CSS lookup tables, defaulting to the
`normal` values for unknown (or absent) CSS strings. -/
def css_to_fc_pattern (sty : ReducedStyle) : FcPattern :=
  { family := removeQuotes sty.family
    width := (alookup sty.stretch CSSSTR_to_FCWDT).getD WIDTH_NORMAL
    weight := (alookup sty.weight CSSWGT_to_FCWGT).getD WEIGHT_NORMAL
    slant := (alookup sty.style CSSSTY_to_FCSLN).getD SLANT_ROMAN }

/-- `FontConfig.fcfound_to_css(f)`: `none` when any of the four attributes is
tuple-valued; otherwise the CSS descriptor with the family re-quoted, the
weight and stretch mapped through `nearest_val`, and the slant looked up
directly (a direct dict index, hence a possible `KeyError` for a slant
outside the table). -/
def fcfound_to_css (f : FcFace) : Except PyErr (Option CssStyle) :=
  match f.family, f.weight, f.slant, f.width with
  | .scalar fcfam, .scalar fcwgt, .scalar fcsln, .scalar fcwdt =>
    match nearest_val FCWGT_to_CSSWGT fcwgt, alookup fcsln FCSLN_to_CSSSTY,
        nearest_val FCWDT_to_CSSSTR fcwdt with
    | some w, some sl, some st =>
      .ok (some { family := squoteWrap (stripSQuotes fcfam)
                  weight := w, style := sl, stretch := st })
    | _, _, _ => .error .keyError
  | _, _, _, _ => .ok none

/-- The fontconfig matching service (opaque): `conf.substitute` +
`default_substitute` + `font_match`, and `font_sort` with `trim=True`
(the ranked, duplicate-trimmed face list). -/
structure FcEnv where
  fontMatch : FcPattern → FcFace
  fontSort : FcPattern → List FcFace

/-- The mutable caches of a `FontConfig` instance. -/
structure FCState where
  truefonts : List (ReducedStyle × Option CssStyle)
  truefontsfc : List (ReducedStyle × FcFace)
  fontcharsets : List (CssStyle × List Nat)
  deriving DecidableEq, Repr

/-- The empty `FontConfig` cache state (fresh instance). -/
def FCState.empty : FCState := ⟨[], [], []⟩

/-- `FontConfig.get_true_font(reducedsty)`.  Besides the returned cache entry
and the updated state, the embedding reports how many `font_match` queries
were issued (0 on a cache hit, 1 on a miss).  On the ambiguous-match path the
source stores `None` in `truefonts`/`truefontsfc` and then evaluates
`truefont.items()` on `None`, raising `AttributeError`; the error carries the
(already mutated) state. -/
def get_true_font (env : FcEnv) (s : FCState) (r : ReducedStyle) :
    Except (PyErr × FCState) (Option CssStyle × FCState × Nat) :=
  match alookup r s.truefonts with
  | some tf => .ok (tf, s, 0)
  | none =>
    let pat := css_to_fc_pattern r
    let found := env.fontMatch pat
    match fcfound_to_css found with
    | .error e => .error (e, s)
    | .ok truefont =>
      let s1 : FCState :=
        { s with truefonts := dictInsert r truefont s.truefonts
                 truefontsfc := dictInsert r found s.truefontsfc }
      match truefont with
      | none => .error (.attributeError, s1)
      | some tf =>
        let s2 : FCState :=
          { s1 with fontcharsets := dictInsert tf found.charset s1.fontcharsets }
        .ok (some tf, s2, 1)

/-! ### `get_true_font_by_char`

The Python dict comprehensions become left folds with `dictInsert`.  A
comprehension such as `{k: truefont for k in chars if cond and k not in d}`
tests membership against the dict as it stood before `d.update(...)`; the
folds below test the evolving dict instead, which yields the same dict
because a repeated character would be re-inserted with the same value. -/

/-- Primary phase: `{k: truefont for k in chars if ord(k) in charset}`. -/
def primaryAssign (tf : CssStyle) (cs : List Nat) (chars : List Nat) :
    List (Nat × Option CssStyle) :=
  chars.foldl (fun d k => if k ∈ cs then dictInsert k (some tf) d else d) []

/-- Ranked-walk phase for one face:
`d2 = {k: truefont for k in chars if ord(k) in cs and k not in d}; d.update(d2)`. -/
def coverAssign (tf : CssStyle) (cs : List Nat) (chars : List Nat)
    (d : List (Nat × Option CssStyle)) : List (Nat × Option CssStyle) :=
  chars.foldl
    (fun d2 k => if k ∈ cs ∧ alookup k d2 = none then dictInsert k (some tf) d2 else d2) d

/-- Final fill: `d.update({c: None for c in chars if c not in d})`. -/
def noneFill (chars : List Nat) (d : List (Nat × Option CssStyle)) :
    List (Nat × Option CssStyle) :=
  chars.foldl (fun d2 c => if alookup c d2 = none then dictInsert c none d2 else d2) d

/-- The `for f in found:` walk of `get_true_font_by_char`: convert each face,
record its charset in `fontcharsets`, assign still-uncovered characters, and
break as soon as every requested character is assigned.  A face whose
conversion yields `None` raises `AttributeError` at `truefont.items()`; a
slant outside the table raises `KeyError` inside `fcfound_to_css`. -/
def byCharLoop (chars : List Nat) :
    List FcFace → List (Nat × Option CssStyle) → FCState →
    Except (PyErr × FCState) (List (Nat × Option CssStyle) × FCState)
  | [], d, s => .ok (d, s)
  | f :: rest, d, s =>
    match fcfound_to_css f with
    | .error e => .error (e, s)
    | .ok none => .error (.attributeError, s)
    | .ok (some tf) =>
      let s1 : FCState :=
        { s with fontcharsets := dictInsert tf f.charset s.fontcharsets }
      let d1 := coverAssign tf f.charset chars d
      if d1.length = chars.length then .ok (d1, s1) else byCharLoop chars rest d1 s1

/-- The `if len(d) < len(chars):` block of `get_true_font_by_char`: run the
ranked `font_sort` walk, then fill `None` for characters no face covers. -/
def afterPrimary (env : FcEnv) (s : FCState) (r : ReducedStyle) (chars : List Nat)
    (d : List (Nat × Option CssStyle)) :
    Except (PyErr × FCState) (List (Nat × Option CssStyle) × FCState) :=
  if d.length < chars.length then
    match byCharLoop chars (env.fontSort (css_to_fc_pattern r)) d s with
    | .error es => .error es
    | .ok (d1, s1) =>
      if d1.length < chars.length then .ok (noneFill chars d1, s1) else .ok (d1, s1)
  else .ok (d, s)

/-- `FontConfig.get_true_font_by_char(reducedsty, chars)`. -/
def get_true_font_by_char (env : FcEnv) (s : FCState) (r : ReducedStyle)
    (chars : List Nat) :
    Except (PyErr × FCState) (List (Nat × Option CssStyle) × FCState) :=
  match alookup r s.truefonts with
  | some none => .error (.attributeError, s)
  | some (some tf) =>
    match alookup tf s.fontcharsets with
    | none => .error (.keyError, s)
    | some cs => afterPrimary env s r chars (primaryAssign tf cs chars)
  | none => afterPrimary env s r chars []

/-- A face whose `fcfound_to_css` conversion succeeds with a descriptor. -/
def cleanFace (f : FcFace) : Bool :=
  match fcfound_to_css f with
  | .ok (some _) => true
  | _ => false

/-- The descriptor of a cleanly-converting face (`none` otherwise). -/
def cssOfClean (f : FcFace) : Option CssStyle :=
  match fcfound_to_css f with
  | .ok v => v
  | .error _ => none

/-- The assignment the spec prescribes for one requested character: the
cached primary face when its coverage set contains the character, else the
first face of the ranked list whose coverage set contains it, else `none`. -/
def expectedFaceFor (env : FcEnv) (r : ReducedStyle) (tf : CssStyle) (cs : List Nat)
    (c : Nat) : Option CssStyle :=
  if c ∈ cs then some tf
  else ((env.fontSort (css_to_fc_pattern r)).find?
      (fun f => decide (c ∈ f.charset))).bind cssOfClean

/-- Primary-cache consistency: the style is either uncached, or cached with a
descriptor whose charset is recorded (which `get_true_font` guarantees). -/
def primaryOk (s : FCState) (r : ReducedStyle) : Bool :=
  match alookup r s.truefonts with
  | none => true
  | some none => false
  | some (some tf) => (alookup tf s.fontcharsets).isSome

/-! ### Concrete sample data for the closed instance theorems -/

/-- A sample reduced style. -/
def exStyle : ReducedStyle := ⟨"SampleFam", "400", "normal", "normal"⟩

/-- A primary face descriptor cached for `exStyle`. -/
def exPrimaryCss : CssStyle := ⟨"PrimaryFam", "400", "normal", "normal"⟩

/-- A fallback face covering code point 66 only. -/
def exFace2 : FcFace :=
  ⟨.scalar "FallbackFam", .scalar 80, .scalar 0, .scalar 100, [66]⟩

/-- A cache state in which `exStyle` resolves to `exPrimaryCss`, which covers
code point 65 only. -/
def exState : FCState :=
  ⟨[(exStyle, some exPrimaryCss)], [], [(exPrimaryCss, [65])]⟩

/-- A matching environment whose best match is `exFace2` and whose ranked
search returns `[exFace2]`. -/
def exEnv : FcEnv := ⟨fun _ => exFace2, fun _ => [exFace2]⟩

/-- The CSS descriptor `fcfound_to_css` derives from `exFace2`. -/
def exFoundCss : CssStyle :=
  ⟨squoteWrap "FallbackFam", "400", "normal", "normal"⟩

/-- The cache state after resolving `exStyle` against `exEnv` from scratch. -/
def exS1 : FCState :=
  ⟨[(exStyle, some exFoundCss)], [(exStyle, exFace2)], [(exFoundCss, [66])]⟩

/-- A face with a tuple-valued FAMILY property (ambiguous match result). -/
def exAmbFace : FcFace := ⟨.listval, .scalar 80, .scalar 0, .scalar 100, []⟩

/-- A matching environment whose best match is the ambiguous `exAmbFace`. -/
def exAmbEnv : FcEnv := ⟨fun _ => exAmbFace, fun _ => []⟩

/-! ### fontTools tables (class `FontTools_FontInstance`)

The binary-table parser is an opaque service; a face is modelled by the
table contents the Python code reads from it. -/

/-- `glyf` outline bounds of one glyph. -/
structure GlyfBounds where
  xMin : Int
  yMin : Int
  xMax : Int
  yMax : Int
  deriving DecidableEq, Repr

/-- The OS/2 fields read by `find_font_metrics`.  `sCapHeight` is `none`
when the attribute is absent (the `hasattr` check) or holds `None`. -/
structure Os2Table where
  sTypoAscender : Int
  sTypoDescender : Int
  version : Nat
  sxHeight : Int
  sCapHeight : Option Int
  deriving DecidableEq, Repr

/-- One ligature of a ligature set: replaces `first_glyph :: Component` by
`LigGlyph`. -/
structure LigatureEntry where
  Component : List String
  LigGlyph : String
  deriving DecidableEq, Repr

/-- The payload of a ligature-substitution subtable, as also found inside an
extension wrapper (`ExtSubTable`): its lookup type and its ligature sets. -/
structure LigSubData where
  LookupType : Nat
  ligatures : List (String × List LigatureEntry)
  deriving DecidableEq, Repr

/-- A GSUB subtable: its own ligature sets (read when the enclosing lookup
has type 4) and its `ExtSubTable` (read when the enclosing lookup has
type 7). -/
structure GsubSubtable where
  ligatures : List (String × List LigatureEntry)
  ExtSubTable : LigSubData
  deriving DecidableEq, Repr

/-- A GSUB lookup: its type and its subtables. -/
structure GsubLookup where
  LookupType : Nat
  SubTable : List GsubSubtable
  deriving DecidableEq, Repr

/-- The tables of an opened face: `head.unitsPerEm`, optional `OS/2`,
`hhea`, the glyph set (rendered glyph heights), `getGlyphNames()`,
`getBestCmap()` (`none` for symbol-only faces), `hmtx.metrics`, the ordered
`kern` subtables, the `GSUB` lookup list, and `glyf` bounds (a glyph absent
from the `glyf` list stands for an outline whose bounds access raises, which
`get_char_advances` catches and turns into a zero box). -/
structure FTTables where
  unitsPerEm : Int
  os2 : Option Os2Table
  hheaAscent : Int
  hheaDescent : Int
  glyphHeights : List (String × Option Int)
  glyphNames : List String
  cmap : Option (List (Nat × String))
  hmtxMetrics : List (String × (Int × Int))
  kern : Option (List (List ((String × String) × Int)))
  gsub : Option (List GsubLookup)
  glyf : Option (List (String × GlyfBounds))
  deriving DecidableEq, Repr

/-- Vertical metrics computed by `find_font_metrics`. -/
structure FontMetricsR where
  ascent : ℚ
  descent : ℚ
  ascent_max : ℚ
  descent_max : ℚ
  design_units : Int
  xheight : ℚ
  baselines : List ℚ
  cap_height : ℚ
  deriving DecidableEq, Repr

/-- The x-height fallback: the rendered height of the `x` glyph when present
and non-`None`, else 0.5 em. -/
def xheight_from_glyph (font : FTTables) (unitsPerEm : ℚ) : ℚ :=
  match alookup "x" font.glyphHeights with
  | some (some h) => |(h : ℚ) / unitsPerEm|
  | _ => 1 / 2

/-- The cap-height fallback: the `I` glyph's `yMax` when `glyf` is present
and `I` is a glyph name, else 1 em.  (`I` listed among the glyph names but
missing from `glyf` would raise in Python; such inconsistent table sets are
not modelled and default to 1 here.) -/
def cap_height_from_glyph (font : FTTables) (unitsPerEm : ℚ) : ℚ :=
  match font.glyf with
  | some glyf_table =>
    if "I" ∈ font.glyphNames then
      match alookup "I" glyf_table with
      | some i_glyph => ((i_glyph.yMax : ℚ) - 0 * (i_glyph.yMin : ℚ)) / unitsPerEm
      | none => 1
    else 1
  | none => 1

/-- `FontTools_FontInstance.find_font_metrics`, with design-unit divisions
carried out exactly in `ℚ` (the source divides Python ints into floats). -/
def find_font_metrics (font : FTTables) : FontMetricsR :=
  let unitsPerEm : ℚ := (font.unitsPerEm : ℚ)
  let ascent0 : ℚ :=
    match font.os2 with
    | some os2 => |(os2.sTypoAscender : ℚ) / unitsPerEm|
    | none => |(font.hheaAscent : ℚ) / unitsPerEm|
  let descent0 : ℚ :=
    match font.os2 with
    | some os2 => |(os2.sTypoDescender : ℚ) / unitsPerEm|
    | none => |(font.hheaDescent : ℚ) / unitsPerEm|
  let ascent_max : ℚ := |(font.hheaAscent : ℚ) / unitsPerEm|
  let descent_max : ℚ := |(font.hheaDescent : ℚ) / unitsPerEm|
  let em := ascent0 + descent0
  let ascent := if em > 0 then ascent0 / em else ascent0
  let descent := if em > 0 then descent0 / em else descent0
  let xheight : ℚ :=
    match font.os2 with
    | some os2 =>
      if 2 ≤ os2.version ∧ os2.version ≠ 0xFFFF then |(os2.sxHeight : ℚ) / unitsPerEm|
      else xheight_from_glyph font unitsPerEm
    | none => xheight_from_glyph font unitsPerEm
  let cap_height : ℚ :=
    match font.os2 with
    | some os2 =>
      match os2.sCapHeight with
      | some h =>
        if h ≠ 0 then (h : ℚ) / unitsPerEm else cap_height_from_glyph font unitsPerEm
      | none => cap_height_from_glyph font unitsPerEm
    | none => cap_height_from_glyph font unitsPerEm
  { ascent := ascent
    descent := descent
    ascent_max := ascent_max
    descent_max := descent_max
    design_units := font.unitsPerEm
    xheight := xheight
    baselines := [-descent, 0.8 * ascent, 0.8 * xheight, 0.5 - descent,
      0.5 * xheight, ascent, -descent, 0]
    cap_height := cap_height }

/-! ### `get_char_advances` -/

/-- The ligature-table scan of `get_char_advances`: walk the GSUB lookup
list, unwrap extension (type 7) subtables, and record, for every ligature of
every ligature-substitution (type 4) subtable, the component sequence
`first_glyph :: Component ↦ LigGlyph`. -/
def buildLigatures (gsub : Option (List GsubLookup)) : List (List String × String) :=
  match gsub with
  | none => []
  | some lookups =>
    lookups.foldl (fun acc lookup =>
      lookup.SubTable.foldl (fun acc subtable =>
        let lookup_type := if lookup.LookupType = 7 then subtable.ExtSubTable.LookupType
          else lookup.LookupType
        let ligs := if lookup.LookupType = 7 then subtable.ExtSubTable.ligatures
          else subtable.ligatures
        if lookup_type = 4 then
          ligs.foldl (fun acc lp =>
            lp.2.foldl (fun acc lig =>
              dictInsert (lp.1 :: lig.Component) lig.LigGlyph acc) acc) acc
        else acc) acc) []

/-- The per-character pass of `get_char_advances`: an advance width when the
glyph is mapped and has `hmtx` metrics; an ink box from the `glyf` bounds
(top-down flip), or the zero box when the outline lookup raises; a `None`
advance (and no ink box) when the character has no cmap entry. -/
def charAdvStep (font : FTTables) (cm : List (Nat × String))
    (p : List (Nat × Option ℚ) × List (Nat × List ℚ)) (c : Nat) :
    List (Nat × Option ℚ) × List (Nat × List ℚ) :=
  match alookup c cm with
  | some glyph1 =>
    let advs :=
      match alookup glyph1 font.hmtxMetrics with
      | some aw => dictInsert c (some ((aw.1 : ℚ) / (font.unitsPerEm : ℚ))) p.1
      | none => p.1
    let bbs :=
      match font.glyf.bind (fun g => alookup glyph1 g) with
      | some glyph =>
        dictInsert c
          [(glyph.xMin : ℚ) / (font.unitsPerEm : ℚ),
           (-glyph.yMax : ℚ) / (font.unitsPerEm : ℚ),
           ((glyph.xMax : ℚ) - (glyph.xMin : ℚ)) / (font.unitsPerEm : ℚ),
           ((glyph.yMax : ℚ) - (glyph.yMin : ℚ)) / (font.unitsPerEm : ℚ)] p.2
      | none => dictInsert c [0, 0, 0, 0] p.2
    (advs, bbs)
  | none => (dictInsert c none p.1, p.2)

/-- Tuple-key lookup `(glyph1, glyph2) in self.ligatures` with possibly
unmapped glyphs: an unmapped side (Python `None`) matches no key. -/
def ligPairLookup (ligs : List (List String × String))
    (g1 g2 : Option String) : Option String :=
  match g1, g2 with
  | some a, some b => alookup [a, b] ligs
  | _, _ => none

/-- Scan the kern subtables in order and return the first adjustment defined
for the glyph pair. -/
def firstKern (kts : List (List ((String × String) × Int)))
    (g1 g2 : Option String) : Option Int :=
  kts.findSome? (fun st =>
    match g1, g2 with
    | some a, some b => alookup (a, b) st
    | _, _ => none)

/-- One preceding-character/character pair of `get_char_advances`: a
ligature entry takes precedence (the substituted glyph's advance minus both
components', a `KeyError` when any of the three is missing from `hmtx`);
else the first kern-subtable adjustment; else 0; divided by `unitsPerEm`. -/
def pairAdjust (font : FTTables) (cm : List (Nat × String))
    (ligs : List (List String × String)) (pc c : Nat) : Except PyErr ℚ :=
  let glyph2 := alookup c cm
  let glyph1 := alookup pc cm
  match ligPairLookup ligs glyph1 glyph2 with
  | some ligglyph =>
    match alookup ligglyph font.hmtxMetrics,
        glyph1.bind (fun g => alookup g font.hmtxMetrics),
        glyph2.bind (fun g => alookup g font.hmtxMetrics) with
    | some awlig, some aw1, some aw2 =>
      .ok (((awlig.1 - aw1.1 - aw2.1 : Int) : ℚ) / (font.unitsPerEm : ℚ))
    | _, _, _ => .error .keyError
  | none =>
    let kv : Option Int :=
      match font.kern with
      | some kts => firstKern kts glyph1 glyph2
      | none => none
    .ok (((kv.getD 0 : Int) : ℚ) / (font.unitsPerEm : ℚ))

/-- The inner `for pc in pchars[c]` loop. -/
def pairInner (font : FTTables) (cm : List (Nat × String))
    (ligs : List (List String × String)) (c : Nat) :
    List Nat → List ((Nat × Nat) × ℚ) → Except PyErr (List ((Nat × Nat) × ℚ))
  | [], dadvs => .ok dadvs
  | pc :: rest, dadvs =>
    match pairAdjust font cm ligs pc c with
    | .error e => .error e
    | .ok v => pairInner font cm ligs c rest (dictInsert (pc, c) v dadvs)

/-- The outer `for c in pchars` loop. -/
def pairLoop (font : FTTables) (cm : List (Nat × String))
    (ligs : List (List String × String)) :
    List (Nat × List Nat) → List ((Nat × Nat) × ℚ) →
    Except PyErr (List ((Nat × Nat) × ℚ))
  | [], dadvs => .ok dadvs
  | (c, pcs) :: rest, dadvs =>
    match pairInner font cm ligs c pcs dadvs with
    | .error e => .error e
    | .ok d2 => pairLoop font cm ligs rest d2

/-- `FontTools_FontInstance.get_char_advances(chars, pchars)`: all three
outputs are `none` when the face has no usable character map; otherwise the
per-character advances and ink boxes, the pair adjustments, and the ink
boxes (the ligature table recomputed here stands for the lazily cached
`self.ligatures`, which holds the same value). -/
def get_char_advances (font : FTTables) (chars : List Nat)
    (pchars : List (Nat × List Nat)) :
    Except PyErr
      (Option (List (Nat × Option ℚ)) × Option (List ((Nat × Nat) × ℚ)) ×
        Option (List (Nat × List ℚ))) :=
  match font.cmap with
  | none => .ok (none, none, none)
  | some cm =>
    let ab := chars.foldl (charAdvStep font cm) ([], [])
    let ligs := buildLigatures font.gsub
    match pairLoop font cm ligs pchars [] with
    | .error e => .error e
    | .ok dadvs => .ok (some ab.1, some dadvs, some ab.2)

/-- Expected advance binding for one character: a missing key exactly when
the mapped glyph has no `hmtx` metrics, `some none` when unmapped. -/
def advOf (font : FTTables) (cm : List (Nat × String)) (c : Nat) : Option (Option ℚ) :=
  match alookup c cm with
  | some g =>
    match alookup g font.hmtxMetrics with
    | some aw => some (some ((aw.1 : ℚ) / (font.unitsPerEm : ℚ)))
    | none => none
  | none => some none

/-- Expected ink-box binding for one character: present exactly when the
character is mapped. -/
def bbOf (font : FTTables) (cm : List (Nat × String)) (c : Nat) : Option (List ℚ) :=
  match alookup c cm with
  | some g =>
    match font.glyf.bind (fun t => alookup g t) with
    | some glyph =>
      some [(glyph.xMin : ℚ) / (font.unitsPerEm : ℚ),
        (-glyph.yMax : ℚ) / (font.unitsPerEm : ℚ),
        ((glyph.xMax : ℚ) - (glyph.xMin : ℚ)) / (font.unitsPerEm : ℚ),
        ((glyph.yMax : ℚ) - (glyph.yMin : ℚ)) / (font.unitsPerEm : ℚ)]
    | none => some [0, 0, 0, 0]
  | none => none

/-- Whether the pair computation for `(pc, c)` avoids a `KeyError`. -/
def pairSafe (font : FTTables) (cm : List (Nat × String))
    (ligs : List (List String × String)) (pc c : Nat) : Bool :=
  match ligPairLookup ligs (alookup pc cm) (alookup c cm) with
  | some ligglyph =>
    (alookup ligglyph font.hmtxMetrics).isSome &&
      ((alookup pc cm).bind (fun g => alookup g font.hmtxMetrics)).isSome &&
      ((alookup c cm).bind (fun g => alookup g font.hmtxMetrics)).isSome
  | none => true

/-- The pair adjustment value (under `pairSafe` the `getD` defaults never
fire). -/
def pairValue (font : FTTables) (cm : List (Nat × String))
    (ligs : List (List String × String)) (pc c : Nat) : ℚ :=
  match ligPairLookup ligs (alookup pc cm) (alookup c cm) with
  | some ligglyph =>
    ((((alookup ligglyph font.hmtxMetrics).getD (0, 0)).1 -
      (((alookup pc cm).bind (fun g => alookup g font.hmtxMetrics)).getD (0, 0)).1 -
      (((alookup c cm).bind (fun g => alookup g font.hmtxMetrics)).getD (0, 0)).1 :
        Int) : ℚ) / (font.unitsPerEm : ℚ)
  | none =>
    ((((match font.kern with
      | some kts => firstKern kts (alookup pc cm) (alookup c cm)
      | none => none).getD 0 : Int)) : ℚ) / (font.unitsPerEm : ℚ)

/-! ### `font_from_fc` collection sub-face selection -/

/-- The OS/2 width class (1..9) to fontconfig width table of
`font_from_fc`. -/
def OS2WDT_to_FCWDT : List (Int × Int) :=
  [(1, WIDTH_ULTRACONDENSED), (2, WIDTH_EXTRACONDENSED), (3, WIDTH_CONDENSED),
   (4, WIDTH_SEMICONDENSED), (5, WIDTH_NORMAL), (6, WIDTH_SEMIEXPANDED),
   (7, WIDTH_EXPANDED), (8, WIDTH_EXTRAEXPANDED), (9, WIDTH_ULTRAEXPANDED)]

/-- The OS/2 weight to fontconfig weight table of `font_from_fc`. -/
def OS2WGT_to_FCWGT : List (Int × Int) :=
  [(100, WEIGHT_THIN), (200, WEIGHT_EXTRALIGHT), (300, WEIGHT_LIGHT),
   (350, WEIGHT_SEMILIGHT), (380, WEIGHT_BOOK), (400, WEIGHT_NORMAL),
   (500, WEIGHT_MEDIUM), (600, WEIGHT_SEMIBOLD), (700, WEIGHT_BOLD),
   (800, WEIGHT_ULTRABOLD), (900, WEIGHT_HEAVY), (1000, WEIGHT_ULTRABLACK)]

/-- Per-sub-face data read by the collection branch of `font_from_fc`:
OS/2 weight and width classes, the `fsSelection` bits, and the subfamily
name record (`none` when missing; the source then uses `"Unknown"`). -/
structure SubFace where
  usWeightClass : Int
  usWidthClass : Int
  fsSelection : Nat
  subfamily : Option String
  deriving DecidableEq, Repr

/-- Python `str.lower()` (over the ASCII subfamily names involved). -/
def lowerStr (s : String) : String := String.mk (s.data.map Char.toLower)

/-- Python `needle in hay` substring test. -/
def containsSub (needle hay : String) : Bool :=
  hay.data.tails.any (fun t => needle.data.isPrefixOf t)

/-- The `font_italic` computation of `font_from_fc`: the low `fsSelection`
bit, or `italic`/`oblique` occurring in the lower-cased subfamily name. -/
def font_italic (sf : SubFace) : Bool :=
  let subfamily := sf.subfamily.getD "Unknown"
  sf.fsSelection % 2 = 1 || containsSub "italic" (lowerStr subfamily) ||
    containsSub "oblique" (lowerStr subfamily)

/-- The three boolean matches of `font_from_fc` for one sub-face; a width
class outside the table raises `KeyError`. -/
def subface_matches (fcwgt fcwdt fcsln : Int) (sf : SubFace) :
    Except PyErr (List Bool) :=
  match alookup sf.usWidthClass OS2WDT_to_FCWDT with
  | none => .error .keyError
  | some w =>
    .ok [decide (nearest_val OS2WGT_to_FCWGT sf.usWeightClass = some fcwgt),
      decide (w = fcwdt),
      (font_italic sf && (decide (fcsln = SLANT_ITALIC) || decide (fcsln = SLANT_OBLIQUE))) ||
        (!font_italic sf && decide (fcsln = SLANT_ROMAN))]

/-- The scores accumulated by the `for i in range(num_fonts)` loop, with the
early break at a perfect score of 3 (later sub-faces are then never read). -/
def score_subfaces (fcwgt fcwdt fcsln : Int) : List SubFace → Except PyErr (List Nat)
  | [] => .ok []
  | sf :: rest =>
    match subface_matches fcwgt fcwdt fcsln sf with
    | .error e => .error e
    | .ok m =>
      if m.count true = 3 then .ok [m.count true]
      else
        match score_subfaces fcwgt fcwdt fcsln rest with
        | .error e => .error e
        | .ok r => .ok (m.count true :: r)

/-- The collection branch of `font_from_fc`, returning the selected
sub-face index: the break index on a perfect match, else
`[TTFont(fname, fontNumber=i) for i in range(num_fonts)
  if num_match[i] == max(num_match)][0]`, i.e. the first index attaining
the maximum score; an empty collection raises at `max(num_match)`. -/
def font_from_fc_select (fcwgt fcwdt fcsln : Int) (sfs : List SubFace) :
    Except PyErr Nat :=
  match score_subfaces fcwgt fcwdt fcsln sfs with
  | .error e => .error e
  | .ok scores =>
    match scores with
    | [] => .error .valueError
    | s0 :: srest =>
      if srest.foldl max s0 < 3 then .ok (scores.indexOf (srest.foldl max s0))
      else .ok (scores.length - 1)

/-- The total three-way score of one sub-face (with the width-class lookup
read as a plain table query). -/
def scoreOf (fcwgt fcwdt fcsln : Int) (sf : SubFace) : Nat :=
  (if nearest_val OS2WGT_to_FCWGT sf.usWeightClass = some fcwgt then 1 else 0) +
  (if alookup sf.usWidthClass OS2WDT_to_FCWDT = some fcwdt then 1 else 0) +
  (if ((font_italic sf &&
      (decide (fcsln = SLANT_ITALIC) || decide (fcsln = SLANT_OBLIQUE))) ||
      (!font_italic sf && decide (fcsln = SLANT_ROMAN))) = true then 1 else 0)

/-- A face whose metrics come from the OS/2 typographic fields. -/
def exFontMetrics : FTTables :=
  ⟨1000, some ⟨800, -200, 4, 500, some 700⟩, 900, -300, [], [], none, [],
    none, none, none⟩

/-- A face with ligature `A V → AV` and a kern entry for the same pair. -/
def exLigFont : FTTables :=
  ⟨10, none, 8, -2, [], [], some [(65, "A"), (86, "V")],
    [("A", (10, 0)), ("V", (11, 0)), ("AV", (15, 0))],
    some [[(("A", "V"), -3)]],
    some [⟨4, [⟨[("A", [⟨["V"], "AV"⟩])], ⟨0, []⟩⟩]⟩],
    none⟩

/-- A face whose cmap maps `B` to a glyph missing from `hmtx`. -/
def exMissFont : FTTables :=
  ⟨10, none, 8, -2, [], [], some [(65, "A"), (66, "B")],
    [("A", (10, 0))], none, none, none⟩

/-- A regular-weight sub-face of a collection. -/
def exSubA : SubFace := ⟨400, 5, 0, some "Regular"⟩

/-- A bold sub-face of a collection. -/
def exSubB : SubFace := ⟨700, 5, 0, some "Bold"⟩


/-! ## Lemmas and theorems -/

theorem length_eq_keys_length {κ α : Type} {d : List (κ × α)} :
    d.length = (keys d).length := by
  simp [keys]

section DictLemmas

variable {κ α : Type} [DecidableEq κ]

@[simp] theorem alookup_nil {k : κ} : alookup k ([] : List (κ × α)) = none := rfl

theorem alookup_cons {k k' : κ} {v : α} {d : List (κ × α)} :
    alookup k ((k', v) :: d) = if k' = k then some v else alookup k d := rfl

@[simp] theorem alookup_dictInsert_self {k : κ} {v : α} {d : List (κ × α)} :
    alookup k (dictInsert k v d) = some v := by
  induction d with
  | nil => simp [dictInsert, alookup]
  | cons p rest ih =>
    obtain ⟨k', v'⟩ := p
    by_cases h : k' = k
    · simp [dictInsert, h, alookup]
    · simp [dictInsert, h, alookup, ih]

theorem alookup_dictInsert_ne {k k' : κ} (h : k ≠ k') {v : α} {d : List (κ × α)} :
    alookup k' (dictInsert k v d) = alookup k' d := by
  induction d with
  | nil => simp [dictInsert, alookup, h]
  | cons p rest ih =>
    obtain ⟨k'', v''⟩ := p
    by_cases h2 : k'' = k
    · subst h2
      simp [dictInsert, alookup, h]
    · simp [dictInsert, h2, alookup, ih]

theorem alookup_dictInsert {k k' : κ} {v : α} {d : List (κ × α)} :
    alookup k' (dictInsert k v d) = if k = k' then some v else alookup k' d := by
  by_cases h : k = k'
  · subst h; simp
  · simp [h, alookup_dictInsert_ne h]

theorem dictInsert_of_alookup_none {k : κ} {v : α} {d : List (κ × α)}
    (h : alookup k d = none) : dictInsert k v d = d ++ [(k, v)] := by
  induction d with
  | nil => rfl
  | cons p rest ih =>
    obtain ⟨k', v'⟩ := p
    by_cases h2 : k' = k
    · simp [alookup_cons, h2] at h
    · simp only [alookup_cons, h2, if_false] at h
      simp [dictInsert, h2, ih h]

theorem mem_keys_iff_alookup_isSome {k : κ} {d : List (κ × α)} :
    k ∈ keys d ↔ (alookup k d).isSome := by
  induction d with
  | nil => simp [keys]
  | cons p rest ih =>
    obtain ⟨k', v'⟩ := p
    by_cases h : k' = k
    · subst h; simp [keys, alookup_cons]
    · simp [keys, alookup_cons, h, Ne.symm h] at ih ⊢
      exact ih

theorem keys_dictInsert_of_alookup_none {k : κ} {v : α} {d : List (κ × α)}
    (h : alookup k d = none) : keys (dictInsert k v d) = keys d ++ [k] := by
  rw [dictInsert_of_alookup_none h]
  simp [keys]

theorem keys_dictInsert_of_alookup_isSome {k : κ} {v : α} {d : List (κ × α)}
    (h : (alookup k d).isSome) : keys (dictInsert k v d) = keys d := by
  induction d with
  | nil => simp [alookup] at h
  | cons p rest ih =>
    obtain ⟨k', v'⟩ := p
    by_cases h2 : k' = k
    · simp [dictInsert, h2, keys]
    · simp only [alookup_cons, h2, if_false] at h
      simp [dictInsert, h2, keys] at ih ⊢
      exact ih h

theorem length_dictInsert_of_alookup_none {k : κ} {v : α} {d : List (κ × α)}
    (h : alookup k d = none) : (dictInsert k v d).length = d.length + 1 := by
  rw [dictInsert_of_alookup_none h]
  simp

theorem length_dictInsert_of_alookup_isSome {k : κ} {v : α} {d : List (κ × α)}
    (h : (alookup k d).isSome) : (dictInsert k v d).length = d.length := by
  have := keys_dictInsert_of_alookup_isSome (v := v) h
  have h1 : (keys (dictInsert k v d)).length = (keys d).length := by rw [this]
  simpa [keys] using h1

theorem keys_nodup_dictInsert {k : κ} {v : α} {d : List (κ × α)}
    (h : (keys d).Nodup) : (keys (dictInsert k v d)).Nodup := by
  rcases h2 : alookup k d with _ | w
  · rw [keys_dictInsert_of_alookup_none h2]
    have hk : k ∉ keys d := by
      intro hmem
      rw [mem_keys_iff_alookup_isSome, h2] at hmem
      simp at hmem
    simpa [List.nodup_append] using ⟨h, hk⟩
  · rw [keys_dictInsert_of_alookup_isSome (by simp [h2])]
    exact h

/-- When an association list has nodup keys all drawn from a nodup list
`chars`, it is complete (has an entry for every element of `chars`) iff its
length equals that of `chars`.  Justifies the Python `len(d) == len(chars)`
completeness checks. -/
theorem complete_iff_length_eq {d : List (κ × α)} {chars : List κ}
    (hnd : (keys d).Nodup) (hsub : ∀ k ∈ keys d, k ∈ chars) (hnc : chars.Nodup) :
    d.length = chars.length ↔ ∀ c ∈ chars, (alookup c d).isSome := by
  have hsp : List.Subperm (keys d) chars := List.Nodup.subperm hnd hsub
  constructor
  · intro hlen c hc
    rw [← mem_keys_iff_alookup_isSome]
    have hperm : List.Perm (keys d) chars := by
      apply hsp.perm_of_length_le
      rw [length_eq_keys_length] at hlen
      omega
    exact hperm.mem_iff.mpr hc
  · intro hall
    have hsub2 : ∀ c ∈ chars, c ∈ keys d := by
      intro c hc
      rw [mem_keys_iff_alookup_isSome]
      exact hall c hc
    have h1 : (keys d).length ≤ chars.length := hsp.length_le
    have h2 : chars.length ≤ (keys d).length :=
      List.Subperm.length_le (List.Nodup.subperm hnc hsub2)
    rw [length_eq_keys_length]
    omega

end DictLemmas

theorem pyMin_cons (f : Int → Int) (x y : Int) (ys : List Int) :
    pyMin f x (y :: ys) = pyMin f (if f y < f x then y else x) ys := rfl

/-- `pyMin` returns an element of the list that attains the minimum of `f`,
and every element strictly before it has a strictly larger `f`-value. -/
theorem pyMin_spec (f : Int → Int) (x : Int) (ys : List Int) :
    ∃ l1 l2, x :: ys = l1 ++ pyMin f x ys :: l2 ∧
      (∀ z ∈ x :: ys, f (pyMin f x ys) ≤ f z) ∧
      (∀ z ∈ l1, f (pyMin f x ys) < f z) := by
  induction ys generalizing x with
  | nil =>
    refine ⟨[], [], by simp [pyMin], ?_, by simp⟩
    intro z hz
    have hzx : z = x := by simpa using hz
    subst hzx
    simp [pyMin]
  | cons y ys ih =>
    by_cases h : f y < f x
    · have hpy : pyMin f x (y :: ys) = pyMin f y ys := by rw [pyMin_cons, if_pos h]
      rw [hpy]
      obtain ⟨l1, l2, hdec, hmin, hstrict⟩ := ih y
      refine ⟨x :: l1, l2, ?_, ?_, ?_⟩
      · rw [List.cons_append, ← hdec]
      · intro z hz
        rcases List.mem_cons.mp hz with rfl | hz2
        · have h1 := hmin y (List.mem_cons_self _ _)
          omega
        · exact hmin z hz2
      · intro z hz
        rcases List.mem_cons.mp hz with rfl | hz2
        · have h1 := hmin y (List.mem_cons_self _ _)
          omega
        · exact hstrict z hz2
    · have hpy : pyMin f x (y :: ys) = pyMin f x ys := by rw [pyMin_cons, if_neg h]
      rw [hpy]
      obtain ⟨l1, l2, hdec, hmin, hstrict⟩ := ih x
      cases l1 with
      | nil =>
        simp only [List.nil_append] at hdec
        injection hdec with hx hl2
        refine ⟨[], y :: ys, ?_, ?_, by simp⟩
        · rw [← hx]
          simp
        · intro z hz
          rw [← hx]
          rcases List.mem_cons.mp hz with rfl | hz2
          · exact le_refl _
          · rcases List.mem_cons.mp hz2 with rfl | hz3
            · omega
            · have h1 := hmin z (List.mem_cons_of_mem _ hz3)
              rw [← hx] at h1
              exact h1
      | cons a l1' =>
        injection hdec with ha htl
        subst ha
        have hfx : f (pyMin f x ys) < f x := hstrict x (List.mem_cons_self _ _)
        have hfy : f x ≤ f y := by omega
        have htl2 : ys = l1' ++ pyMin f x ys :: l2 := htl
        refine ⟨x :: y :: l1', l2, ?_, ?_, ?_⟩
        · rw [List.cons_append, List.cons_append, ← htl2]
        · intro z hz
          rcases List.mem_cons.mp hz with rfl | hz2
          · exact le_of_lt hfx
          · rcases List.mem_cons.mp hz2 with rfl | hz3
            · omega
            · exact hmin z (List.mem_cons_of_mem _ hz3)
        · intro z hz
          rcases List.mem_cons.mp hz with rfl | hz2
          · exact hfx
          · rcases List.mem_cons.mp hz2 with rfl | hz3
            · omega
            · exact hstrict z (List.mem_cons_of_mem _ hz3)

theorem alookup_append_cons {κ α : Type} [DecidableEq κ] (k : κ) (v : α) (l1 l2 : List (κ × α)) :
    (keys (l1 ++ (k, v) :: l2)).Nodup → alookup k (l1 ++ (k, v) :: l2) = some v := by
  induction l1 with
  | nil =>
    intro _
    simp [alookup_cons]
  | cons p rest ih =>
    intro hnd
    obtain ⟨k', v'⟩ := p
    have hsplit := List.nodup_cons.mp
      (show (k' :: keys (rest ++ (k, v) :: l2)).Nodup from hnd)
    have hk : k' ≠ k := by
      intro hcontra
      subst hcontra
      exact hsplit.1 (by simp [keys])
    rw [List.cons_append, alookup_cons, if_neg hk]
    exact ih hsplit.2

/-- With nodup keys, the association-list lookup of a key appearing at a given
position returns that position's value. -/
theorem alookup_of_decomp {κ α : Type} [DecidableEq κ] {d l1 l2 : List (κ × α)} {k : κ} {v : α}
    (hnd : (keys d).Nodup) (hdec : d = l1 ++ (k, v) :: l2) :
    alookup k d = some v := by
  subst hdec
  exact alookup_append_cons k v l1 l2 hnd

theorem mem_keys_dictInsert {κ α : Type} [DecidableEq κ] {k a : κ} {v : α} {d : List (κ × α)}
    (hmem : k ∈ keys (dictInsert a v d)) : k = a ∨ k ∈ keys d := by
  rcases h : alookup a d with _ | w
  · rw [keys_dictInsert_of_alookup_none h] at hmem
    rcases List.mem_append.mp hmem with h2 | h2
    · exact Or.inr h2
    · exact Or.inl (by simpa using h2)
  · rw [keys_dictInsert_of_alookup_isSome (by simp [h])] at hmem
    exact Or.inr hmem

/-- For a fold whose step either leaves the dict unchanged or inserts the
processed key, key-nodupness is preserved and every key of the result comes
from the seed dict or the processed list. -/
theorem foldl_keys_spec {β : Type} (step : List (Nat × β) → Nat → List (Nat × β))
    (hstep : ∀ d k, step d k = d ∨ ∃ v, step d k = dictInsert k v d)
    (chars : List Nat) :
    ∀ d0 : List (Nat × β), (keys d0).Nodup →
      (keys (chars.foldl step d0)).Nodup ∧
        ∀ k ∈ keys (chars.foldl step d0), k ∈ keys d0 ∨ k ∈ chars := by
  induction chars with
  | nil =>
    intro d0 hnd
    exact ⟨hnd, fun k hk => Or.inl hk⟩
  | cons a rest ih =>
    intro d0 hnd
    have h1 : (keys (step d0 a)).Nodup := by
      rcases hstep d0 a with h | ⟨v, h⟩
      · rw [h]; exact hnd
      · rw [h]; exact keys_nodup_dictInsert hnd
    obtain ⟨hn2, hsub2⟩ := ih (step d0 a) h1
    rw [List.foldl_cons]
    refine ⟨hn2, fun k hk => ?_⟩
    rcases hsub2 k hk with hk2 | hk2
    · rcases hstep d0 a with h | ⟨v, h⟩
      · rw [h] at hk2
        exact Or.inl hk2
      · rw [h] at hk2
        rcases mem_keys_dictInsert hk2 with h3 | h3
        · exact Or.inr (by simp [h3])
        · exact Or.inl h3
    · exact Or.inr (List.mem_cons_of_mem _ hk2)

theorem alookup_primaryAssign_fold (tf : CssStyle) (cs : List Nat) (chars : List Nat)
    (d0 : List (Nat × Option CssStyle)) (c : Nat) :
    alookup c (chars.foldl (fun d k => if k ∈ cs then dictInsert k (some tf) d else d) d0) =
      if c ∈ chars ∧ c ∈ cs then some (some tf) else alookup c d0 := by
  induction chars generalizing d0 with
  | nil => simp
  | cons k rest ih =>
    rw [List.foldl_cons, ih]
    by_cases hck : c = k
    · subst hck
      by_cases hcs : c ∈ cs
      · by_cases hcr : c ∈ rest
        · simp [hcr, hcs]
        · simp [hcr, hcs]
      · simp [hcs]
    · have hke : k ≠ c := Ne.symm hck
      have hstep : alookup c (if k ∈ cs then dictInsert k (some tf) d0 else d0) =
          alookup c d0 := by
        by_cases hk : k ∈ cs
        · simp [hk, alookup_dictInsert_ne hke]
        · simp [hk]
      rw [hstep]
      simp [List.mem_cons, hck]

theorem alookup_primaryAssign (tf : CssStyle) (cs : List Nat) (chars : List Nat) (c : Nat) :
    alookup c (primaryAssign tf cs chars) =
      if c ∈ chars ∧ c ∈ cs then some (some tf) else none := by
  unfold primaryAssign
  rw [alookup_primaryAssign_fold]
  simp

theorem alookup_coverAssign (tf : CssStyle) (cs : List Nat) {chars : List Nat}
    (hnc : chars.Nodup) (d0 : List (Nat × Option CssStyle)) (c : Nat) :
    alookup c (coverAssign tf cs chars d0) =
      if c ∈ chars ∧ c ∈ cs ∧ alookup c d0 = none then some (some tf)
      else alookup c d0 := by
  induction chars generalizing d0 with
  | nil => simp [coverAssign]
  | cons k rest ih =>
    have hnrest : rest.Nodup := (List.nodup_cons.mp hnc).2
    have hknotin : k ∉ rest := (List.nodup_cons.mp hnc).1
    have hunf : coverAssign tf cs (k :: rest) d0 =
        coverAssign tf cs rest
          (if k ∈ cs ∧ alookup k d0 = none then dictInsert k (some tf) d0 else d0) := rfl
    rw [hunf, ih hnrest]
    by_cases hck : c = k
    · subst hck
      have hcr : c ∉ rest := hknotin
      by_cases hcond : c ∈ cs ∧ alookup c d0 = none
      · simp [hcr, hcond.1, hcond.2]
      · have hd1 : (if c ∈ cs ∧ alookup c d0 = none then dictInsert c (some tf) d0 else d0)
            = d0 := by simp [hcond]
        rw [hd1]
        simp only [hcr, false_and, and_false, if_false, List.mem_cons, true_or, true_and]
        by_cases hcs : c ∈ cs
        · simp only [hcs, true_and]
          rcases h0 : alookup c d0 with _ | w
          · exact absurd ⟨hcs, h0⟩ hcond
          · simp
        · simp [hcs]
    · have hke : k ≠ c := Ne.symm hck
      have hstep : alookup c
          (if k ∈ cs ∧ alookup k d0 = none then dictInsert k (some tf) d0 else d0) =
          alookup c d0 := by
        by_cases hk : k ∈ cs ∧ alookup k d0 = none
        · simp [hk, alookup_dictInsert_ne hke]
        · simp [hk]
      rw [hstep]
      simp [List.mem_cons, hck]

theorem keys_primaryAssign_spec (tf : CssStyle) (cs : List Nat) (chars : List Nat) :
    (keys (primaryAssign tf cs chars)).Nodup ∧
      ∀ k ∈ keys (primaryAssign tf cs chars), k ∈ chars := by
  have hstep : ∀ (d : List (Nat × Option CssStyle)) (k : Nat),
      (if k ∈ cs then dictInsert k (some tf) d else d) = d ∨
        ∃ v, (if k ∈ cs then dictInsert k (some tf) d else d) = dictInsert k v d := by
    intro d k
    by_cases hk : k ∈ cs
    · exact Or.inr ⟨some tf, by rw [if_pos hk]⟩
    · exact Or.inl (by rw [if_neg hk])
  obtain ⟨h1, h2⟩ := foldl_keys_spec _ hstep chars [] (by simp [keys])
  refine ⟨h1, fun k hk => ?_⟩
  rcases h2 k hk with h3 | h3
  · simp [keys] at h3
  · exact h3

theorem keys_coverAssign_spec (tf : CssStyle) (cs : List Nat) (chars : List Nat)
    (d0 : List (Nat × Option CssStyle)) (hnd : (keys d0).Nodup) :
    (keys (coverAssign tf cs chars d0)).Nodup ∧
      ∀ k ∈ keys (coverAssign tf cs chars d0), k ∈ keys d0 ∨ k ∈ chars := by
  have hstep : ∀ (d : List (Nat × Option CssStyle)) (k : Nat),
      (if k ∈ cs ∧ alookup k d = none then dictInsert k (some tf) d else d) = d ∨
        ∃ v, (if k ∈ cs ∧ alookup k d = none then dictInsert k (some tf) d else d) =
          dictInsert k v d := by
    intro d k
    by_cases hk : k ∈ cs ∧ alookup k d = none
    · exact Or.inr ⟨some tf, by rw [if_pos hk]⟩
    · exact Or.inl (by rw [if_neg hk])
  exact foldl_keys_spec _ hstep chars d0 hnd

theorem keys_noneFill_spec (chars : List Nat) (d0 : List (Nat × Option CssStyle))
    (hnd : (keys d0).Nodup) :
    (keys (noneFill chars d0)).Nodup ∧
      ∀ k ∈ keys (noneFill chars d0), k ∈ keys d0 ∨ k ∈ chars := by
  have hstep : ∀ (d : List (Nat × Option CssStyle)) (k : Nat),
      (if alookup k d = none then dictInsert k none d else d) = d ∨
        ∃ v, (if alookup k d = none then dictInsert k none d else d) = dictInsert k v d := by
    intro d k
    by_cases hk : alookup k d = none
    · exact Or.inr ⟨none, by rw [if_pos hk]⟩
    · exact Or.inl (by rw [if_neg hk])
  exact foldl_keys_spec _ hstep chars d0 hnd

theorem alookup_noneFill (chars : List Nat) (d0 : List (Nat × Option CssStyle)) (c : Nat) :
    alookup c (noneFill chars d0) =
      if c ∈ chars ∧ alookup c d0 = none then some none else alookup c d0 := by
  induction chars generalizing d0 with
  | nil => simp [noneFill]
  | cons k rest ih =>
    have hunf : noneFill (k :: rest) d0 =
        noneFill rest (if alookup k d0 = none then dictInsert k none d0 else d0) := rfl
    rw [hunf, ih]
    by_cases hck : c = k
    · subst hck
      rcases h0 : alookup c d0 with _ | w
      · have hl : alookup c (dictInsert c (none : Option CssStyle) d0) = some none := by
          simp
        simp [h0, hl]
      · simp [h0]
    · have hke : k ≠ c := Ne.symm hck
      have hstep : alookup c (if alookup k d0 = none then dictInsert k none d0 else d0) =
          alookup c d0 := by
        by_cases hk : alookup k d0 = none
        · simp [hk, alookup_dictInsert_ne hke]
        · simp [hk]
      rw [hstep]
      simp [List.mem_cons, hck]

theorem cleanFace_exists {f : FcFace} (h : cleanFace f = true) :
    ∃ tf, fcfound_to_css f = .ok (some tf) ∧ cssOfClean f = some tf := by
  unfold cleanFace at h
  unfold cssOfClean
  rcases hf : fcfound_to_css f with e | v
  · rw [hf] at h
    simp at h
  · rcases v with _ | x
    · rw [hf] at h
      simp at h
    · exact ⟨x, rfl, rfl⟩

theorem byCharLoop_cons (chars : List Nat) (f : FcFace) (rest : List FcFace)
    (d : List (Nat × Option CssStyle)) (s : FCState) :
    byCharLoop chars (f :: rest) d s =
      match fcfound_to_css f with
      | .error e => .error (e, s)
      | .ok none => .error (.attributeError, s)
      | .ok (some tf) =>
        let s1 : FCState :=
          { s with fontcharsets := dictInsert tf f.charset s.fontcharsets }
        let d1 := coverAssign tf f.charset chars d
        if d1.length = chars.length then .ok (d1, s1) else byCharLoop chars rest d1 s1 := rfl

/-- Main walk lemma: under clean conversions the ranked walk succeeds, the
result keeps nodup keys drawn from `chars`, already-assigned characters are
untouched, and every still-unassigned character is mapped exactly when the
first covering face of the walked list exists. -/
theorem byCharLoop_spec {chars : List Nat} (hnc : chars.Nodup) :
    ∀ (fs : List FcFace) (d0 : List (Nat × Option CssStyle)) (s0 : FCState),
      (∀ f ∈ fs, cleanFace f = true) →
      (keys d0).Nodup → (∀ k ∈ keys d0, k ∈ chars) →
      ∃ d s', byCharLoop chars fs d0 s0 = .ok (d, s') ∧
        (keys d).Nodup ∧ (∀ k ∈ keys d, k ∈ chars) ∧
        (∀ c, (alookup c d0).isSome → alookup c d = alookup c d0) ∧
        (∀ c ∈ chars, alookup c d0 = none →
          alookup c d = (fs.find? (fun f => decide (c ∈ f.charset))).map cssOfClean) := by
  intro fs
  induction fs with
  | nil =>
    intro d0 s0 _ hnd hsub
    refine ⟨d0, s0, rfl, hnd, hsub, fun c _ => rfl, fun c hc h0 => ?_⟩
    simpa using h0
  | cons f rest ih =>
    intro d0 s0 hclean hnd hsub
    obtain ⟨tf, htf, hcss⟩ := cleanFace_exists (hclean f (List.mem_cons_self _ _))
    have hd1 : ∀ c, alookup c (coverAssign tf f.charset chars d0) =
        if c ∈ chars ∧ c ∈ f.charset ∧ alookup c d0 = none then some (some tf)
        else alookup c d0 := fun c => alookup_coverAssign tf f.charset hnc d0 c
    obtain ⟨hd1nd, hd1sub0⟩ := keys_coverAssign_spec tf f.charset chars d0 hnd
    have hd1sub : ∀ k ∈ keys (coverAssign tf f.charset chars d0), k ∈ chars :=
      fun k hk => (hd1sub0 k hk).elim (hsub k) id
    by_cases hfull : (coverAssign tf f.charset chars d0).length = chars.length
    · have hcomp : ∀ c ∈ chars, (alookup c (coverAssign tf f.charset chars d0)).isSome :=
        (complete_iff_length_eq hd1nd hd1sub hnc).mp hfull
      refine ⟨coverAssign tf f.charset chars d0,
        { s0 with fontcharsets := dictInsert tf f.charset s0.fontcharsets },
        ?_, hd1nd, hd1sub, ?_, ?_⟩
      · simp only [byCharLoop_cons, htf]
        rw [if_pos hfull]
      · intro c hcs
        rw [hd1 c, if_neg ?_]
        rintro ⟨_, _, h3⟩
        rw [h3] at hcs
        simp at hcs
      · intro c hc h0
        by_cases hcov : c ∈ f.charset
        · rw [List.find?_cons_of_pos _ (by simpa using hcov)]
          rw [hd1 c, if_pos ⟨hc, hcov, h0⟩, Option.map_some', hcss]
        · exfalso
          have h1 : alookup c (coverAssign tf f.charset chars d0) = none := by
            rw [hd1 c, if_neg ?_]
            · exact h0
            · rintro ⟨_, h2, _⟩
              exact hcov h2
          have h2 := hcomp c hc
          rw [h1] at h2
          simp at h2
    · obtain ⟨d, s', hloop, hnd', hsub', hpres, hnew⟩ :=
        ih (coverAssign tf f.charset chars d0)
          { s0 with fontcharsets := dictInsert tf f.charset s0.fontcharsets }
          (fun g hg => hclean g (List.mem_cons_of_mem _ hg)) hd1nd hd1sub
      refine ⟨d, s', ?_, hnd', hsub', ?_, ?_⟩
      · simp only [byCharLoop_cons, htf]
        rw [if_neg hfull]
        exact hloop
      · intro c hcs
        have hne : ¬(c ∈ chars ∧ c ∈ f.charset ∧ alookup c d0 = none) := by
          rintro ⟨_, _, h3⟩
          rw [h3] at hcs
          simp at hcs
        have h1 : alookup c (coverAssign tf f.charset chars d0) = alookup c d0 := by
          rw [hd1 c, if_neg hne]
        rw [hpres c (by rw [h1]; exact hcs), h1]
      · intro c hc h0
        by_cases hcov : c ∈ f.charset
        · have h1 : alookup c (coverAssign tf f.charset chars d0) = some (some tf) := by
            rw [hd1 c, if_pos ⟨hc, hcov, h0⟩]
          rw [List.find?_cons_of_pos _ (by simpa using hcov)]
          rw [hpres c (by rw [h1]; simp), h1, Option.map_some', hcss]
        · have h1 : alookup c (coverAssign tf f.charset chars d0) = alookup c d0 := by
            rw [hd1 c, if_neg ?_]
            rintro ⟨_, h2, _⟩
            exact hcov h2
          rw [List.find?_cons_of_neg _ (by simpa using hcov)]
          exact hnew c hc (by rw [h1]; exact h0)

theorem afterPrimary_eq_of_loop (env : FcEnv) (s : FCState) (r : ReducedStyle)
    (chars : List Nat) (d0 d1 : List (Nat × Option CssStyle)) (s1 : FCState)
    (hlt : d0.length < chars.length)
    (hloop : byCharLoop chars (env.fontSort (css_to_fc_pattern r)) d0 s = .ok (d1, s1)) :
    afterPrimary env s r chars d0 =
      if d1.length < chars.length then .ok (noneFill chars d1, s1) else .ok (d1, s1) := by
  unfold afterPrimary
  rw [if_pos hlt, hloop]

theorem afterPrimary_eq_of_complete (env : FcEnv) (s : FCState) (r : ReducedStyle)
    (chars : List Nat) (d0 : List (Nat × Option CssStyle))
    (hlt : ¬d0.length < chars.length) :
    afterPrimary env s r chars d0 = .ok (d0, s) := by
  unfold afterPrimary
  rw [if_neg hlt]

/-- Full behaviour of the fallback phase: clean faces make it succeed, keys
stay nodup and within `chars`, every requested character ends up with an
entry, and the entry is the already-assigned face, else the first covering
ranked face, else an explicit `none`. -/
theorem afterPrimary_spec (env : FcEnv) (s : FCState) (r : ReducedStyle)
    {chars : List Nat} (hnc : chars.Nodup)
    (hclean : ∀ f ∈ env.fontSort (css_to_fc_pattern r), cleanFace f = true)
    (d0 : List (Nat × Option CssStyle))
    (hnd : (keys d0).Nodup) (hsub : ∀ k ∈ keys d0, k ∈ chars) :
    ∃ d s', afterPrimary env s r chars d0 = .ok (d, s') ∧
      (keys d).Nodup ∧ (∀ k ∈ keys d, k ∈ chars) ∧
      (∀ c ∈ chars, alookup c d =
        if (alookup c d0).isSome then alookup c d0
        else some (((env.fontSort (css_to_fc_pattern r)).find?
            (fun f => decide (c ∈ f.charset))).bind cssOfClean)) ∧
      (∀ c ∈ chars, (alookup c d).isSome) := by
  by_cases hlt : d0.length < chars.length
  · obtain ⟨d1, s1, hloop, hnd1, hsub1, hpres, hnew⟩ :=
      byCharLoop_spec hnc (env.fontSort (css_to_fc_pattern r)) d0 s hclean hnd hsub
    by_cases hfull : d1.length < chars.length
    · refine ⟨noneFill chars d1, s1, ?_, (keys_noneFill_spec chars d1 hnd1).1, ?_, ?_, ?_⟩
      · rw [afterPrimary_eq_of_loop env s r chars d0 d1 s1 hlt hloop, if_pos hfull]
      · intro k hk
        rcases (keys_noneFill_spec chars d1 hnd1).2 k hk with h | h
        · exact hsub1 k h
        · exact h
      · intro c hc
        rw [alookup_noneFill]
        rcases h0 : alookup c d0 with _ | v
        · have h1 := hnew c hc h0
          rcases hf : (env.fontSort (css_to_fc_pattern r)).find?
              (fun f => decide (c ∈ f.charset)) with _ | g
          · rw [hf] at h1
            simp only [Option.map_none'] at h1
            rw [if_pos ⟨hc, h1⟩]
            simp [hf]
          · rw [hf] at h1
            simp only [Option.map_some'] at h1
            rw [if_neg (by rw [h1]; rintro ⟨_, h2⟩; exact Option.noConfusion h2), h1]
            simp [h0, hf]
        · have h1 : alookup c d1 = alookup c d0 := hpres c (by rw [h0]; rfl)
          rw [if_neg (by rw [h1, h0]; rintro ⟨_, h2⟩; exact Option.noConfusion h2), h1, h0]
          simp
      · intro c hc
        rw [alookup_noneFill]
        by_cases h1 : alookup c d1 = none
        · rw [if_pos ⟨hc, h1⟩]
          rfl
        · rw [if_neg (by rintro ⟨_, h2⟩; exact h1 h2)]
          rw [Option.isSome_iff_ne_none]
          exact h1
    · have hfe : d1.length = chars.length := by
        have hle : d1.length ≤ chars.length := by
          rw [length_eq_keys_length]
          exact List.Subperm.length_le (List.Nodup.subperm hnd1 hsub1)
        omega
      have hcomp := (complete_iff_length_eq hnd1 hsub1 hnc).mp hfe
      refine ⟨d1, s1, ?_, hnd1, hsub1, ?_, hcomp⟩
      · rw [afterPrimary_eq_of_loop env s r chars d0 d1 s1 hlt hloop, if_neg hfull]
      · intro c hc
        rcases h0 : alookup c d0 with _ | v
        · have h1 := hnew c hc h0
          rcases hf : (env.fontSort (css_to_fc_pattern r)).find?
              (fun f => decide (c ∈ f.charset)) with _ | g
          · exfalso
            rw [hf] at h1
            simp only [Option.map_none'] at h1
            have h2 := hcomp c hc
            rw [h1] at h2
            simp at h2
          · rw [hf] at h1
            simp only [Option.map_some'] at h1
            rw [h1]
            simp [h0, hf]
        · rw [hpres c (by rw [h0]; rfl), h0]
          simp
  · have hfe : d0.length = chars.length := by
      have hle : d0.length ≤ chars.length := by
        rw [length_eq_keys_length]
        exact List.Subperm.length_le (List.Nodup.subperm hnd hsub)
      omega
    have hcomp := (complete_iff_length_eq hnd hsub hnc).mp hfe
    refine ⟨d0, s, ?_, hnd, hsub, ?_, hcomp⟩
    · exact afterPrimary_eq_of_complete env s r chars d0 hlt
    · intro c hc
      rw [if_pos (hcomp c hc)]

/-- Once the walk has assigned every requested character, the faces after the
completing one are never consulted: the loop on any extension of the walked
list returns the same dict and state. -/
theorem byCharLoop_append_of_complete {chars : List Nat} :
    ∀ (fs1 fs2 : List FcFace) (d0 : List (Nat × Option CssStyle)) (s0 : FCState)
      (d1 : List (Nat × Option CssStyle)) (s1 : FCState),
      byCharLoop chars fs1 d0 s0 = .ok (d1, s1) →
      d1.length = chars.length → d0.length ≠ chars.length →
      byCharLoop chars (fs1 ++ fs2) d0 s0 = .ok (d1, s1) := by
  intro fs1
  induction fs1 with
  | nil =>
    intro fs2 d0 s0 d1 s1 h hfull hne
    have h2 : d0 = d1 ∧ s0 = s1 := by
      have h3 : (Except.ok (d0, s0) :
          Except (PyErr × FCState) (List (Nat × Option CssStyle) × FCState)) =
          .ok (d1, s1) := h
      injection h3 with h4
      exact ⟨congrArg Prod.fst h4, congrArg Prod.snd h4⟩
    exact absurd (h2.1 ▸ hfull) hne
  | cons f rest ih =>
    intro fs2 d0 s0 d1 s1 h hfull hne
    rw [List.cons_append]
    rcases hf : fcfound_to_css f with e | v
    · rw [byCharLoop_cons, hf] at h
      exact absurd h (by simp)
    · rcases v with _ | tf
      · rw [byCharLoop_cons, hf] at h
        exact absurd h (by simp)
      · simp only [byCharLoop_cons, hf] at h ⊢
        by_cases hc : (coverAssign tf f.charset chars d0).length = chars.length
        · rw [if_pos hc] at h ⊢
          exact h
        · rw [if_neg hc] at h ⊢
          exact ih fs2 _ _ d1 s1 h hfull hc

/-- C1: for a style whose primary face is cached, `get_true_font_by_char`
maps each requested character covered by the primary face to the primary
descriptor, maps each other character to the first face of the ranked
(trimmed) `font_sort` list whose coverage set contains it, maps a character
to `none` exactly when no ranked face covers it, and stops the walk early:
once every character is assigned, faces beyond the completing one are never
consulted, so any extension of the ranked list yields the identical result. -/
theorem get_true_font_by_char_first_cover
    (env env2 : FcEnv) (s : FCState) (r : ReducedStyle) (chars : List Nat)
    (tf : CssStyle) (cs : List Nat)
    (hnc : chars.Nodup)
    (hcache : alookup r s.truefonts = some (some tf))
    (hcs : alookup tf s.fontcharsets = some cs)
    (hclean : ∀ f ∈ env.fontSort (css_to_fc_pattern r), cleanFace f = true) :
    (∃ d s', get_true_font_by_char env s r chars = .ok (d, s') ∧
      ∀ c ∈ chars, alookup c d = some (expectedFaceFor env r tf cs c)) ∧
    (∀ fs2 d s',
      env2.fontSort (css_to_fc_pattern r) = env.fontSort (css_to_fc_pattern r) ++ fs2 →
      get_true_font_by_char env s r chars = .ok (d, s') →
      (∀ c ∈ chars, ∃ g, alookup c d = some (some g)) →
      get_true_font_by_char env2 s r chars = .ok (d, s')) := by
  obtain ⟨pnd, psub⟩ := keys_primaryAssign_spec tf cs chars
  have hunf : get_true_font_by_char env s r chars =
      afterPrimary env s r chars (primaryAssign tf cs chars) := by
    simp only [get_true_font_by_char, hcache, hcs]
  have hunf2 : get_true_font_by_char env2 s r chars =
      afterPrimary env2 s r chars (primaryAssign tf cs chars) := by
    simp only [get_true_font_by_char, hcache, hcs]
  constructor
  · obtain ⟨d, s', hok, hnd', hsub', hform, hcomp⟩ :=
      afterPrimary_spec env s r hnc hclean (primaryAssign tf cs chars) pnd psub
    refine ⟨d, s', by rw [hunf]; exact hok, ?_⟩
    intro c hc
    have h1 := hform c hc
    rw [alookup_primaryAssign tf cs chars c] at h1
    unfold expectedFaceFor
    by_cases hin : c ∈ cs
    · rw [if_pos hin]
      simpa [hc, hin] using h1
    · rw [if_neg hin]
      simpa [hin] using h1
  · intro fs2 d s' henv2 hres hall
    rw [hunf] at hres
    rw [hunf2]
    by_cases hlt : (primaryAssign tf cs chars).length < chars.length
    · obtain ⟨d1, s1, hloop, hnd1, hsub1, hpres, hnew⟩ :=
        byCharLoop_spec hnc (env.fontSort (css_to_fc_pattern r))
          (primaryAssign tf cs chars) s hclean pnd psub
      rw [afterPrimary_eq_of_loop env s r chars _ d1 s1 hlt hloop] at hres
      by_cases hfull : d1.length < chars.length
      · exfalso
        rw [if_pos hfull] at hres
        have hde : noneFill chars d1 = d := by
          injection hres with h4
          exact congrArg Prod.fst h4
        have hne : ¬∀ c ∈ chars, (alookup c d1).isSome := by
          intro hcompl
          have := (complete_iff_length_eq hnd1 hsub1 hnc).mpr hcompl
          omega
        push_neg at hne
        obtain ⟨c, hc, hnone⟩ := hne
        have hn2 : alookup c d1 = none := by
          rcases h2 : alookup c d1 with _ | v
          · rfl
          · rw [h2] at hnone
            simp at hnone
        have hlook : alookup c d = some none := by
          rw [← hde, alookup_noneFill, if_pos ⟨hc, hn2⟩]
        obtain ⟨g, hg⟩ := hall c hc
        rw [hlook] at hg
        exact Option.noConfusion (Option.some.inj hg)
      · rw [if_neg hfull] at hres
        have hfe : d1.length = chars.length := by
          have hle : d1.length ≤ chars.length := by
            rw [length_eq_keys_length]
            exact List.Subperm.length_le (List.Nodup.subperm hnd1 hsub1)
          omega
        have hne0 : (primaryAssign tf cs chars).length ≠ chars.length := by omega
        have hloop2 := byCharLoop_append_of_complete
          (env.fontSort (css_to_fc_pattern r)) fs2 (primaryAssign tf cs chars) s d1 s1
          hloop hfe hne0
        rw [← henv2] at hloop2
        rw [afterPrimary_eq_of_loop env2 s r chars _ d1 s1 hlt hloop2, if_neg hfull]
        exact hres
    · rw [afterPrimary_eq_of_complete env s r chars _ hlt] at hres
      rw [afterPrimary_eq_of_complete env2 s r chars _ hlt]
      exact hres

theorem get_true_font_by_char_first_cover_witness :
    ([65, 66, 67] : List Nat).Nodup ∧
    alookup exStyle exState.truefonts = some (some exPrimaryCss) ∧
    alookup exPrimaryCss exState.fontcharsets = some [65] ∧
    (∀ f ∈ exEnv.fontSort (css_to_fc_pattern exStyle), cleanFace f = true) ∧
    ((∃ d s', get_true_font_by_char exEnv exState exStyle [65, 66, 67] = .ok (d, s') ∧
      ∀ c ∈ ([65, 66, 67] : List Nat),
        alookup c d = some (expectedFaceFor exEnv exStyle exPrimaryCss [65] c)) ∧
    (∀ fs2 d s',
      exEnv.fontSort (css_to_fc_pattern exStyle) =
        exEnv.fontSort (css_to_fc_pattern exStyle) ++ fs2 →
      get_true_font_by_char exEnv exState exStyle [65, 66, 67] = .ok (d, s') →
      (∀ c ∈ ([65, 66, 67] : List Nat), ∃ g, alookup c d = some (some g)) →
      get_true_font_by_char exEnv exState exStyle [65, 66, 67] = .ok (d, s'))) :=
  ⟨by decide, by decide, by decide, by decide,
    get_true_font_by_char_first_cover exEnv exEnv exState exStyle [65, 66, 67]
      exPrimaryCss [65] (by decide) (by decide) (by decide) (by decide)⟩

/-- C9: on a consistent cache and clean ranked faces, the mapping returned by
`get_true_font_by_char` for duplicate-free requested characters has nodup
keys and an entry for exactly the requested characters. -/
theorem get_true_font_by_char_keys (env : FcEnv) (s : FCState) (r : ReducedStyle)
    (chars : List Nat) (hnc : chars.Nodup) (hprim : primaryOk s r = true)
    (hclean : ∀ f ∈ env.fontSort (css_to_fc_pattern r), cleanFace f = true) :
    ∃ d s', get_true_font_by_char env s r chars = .ok (d, s') ∧
      (keys d).Nodup ∧ ∀ c, (alookup c d).isSome ↔ c ∈ chars := by
  unfold primaryOk at hprim
  rcases hc0 : alookup r s.truefonts with _ | otf
  · have hunf : get_true_font_by_char env s r chars = afterPrimary env s r chars [] := by
      unfold get_true_font_by_char
      rw [hc0]
    obtain ⟨d, s', hok, hnd', hsub', hform, hcomp⟩ :=
      afterPrimary_spec env s r hnc hclean [] (by simp [keys]) (by simp [keys])
    refine ⟨d, s', by rw [hunf]; exact hok, hnd', fun c => ⟨fun h => ?_, fun h => hcomp c h⟩⟩
    exact hsub' c (mem_keys_iff_alookup_isSome.mpr h)
  · rcases otf with _ | tf
    · rw [hc0] at hprim
      simp at hprim
    · rw [hc0] at hprim
      simp only [] at hprim
      rcases hcs : alookup tf s.fontcharsets with _ | cs
      · rw [hcs] at hprim
        simp at hprim
      · have hunf : get_true_font_by_char env s r chars =
            afterPrimary env s r chars (primaryAssign tf cs chars) := by
          simp only [get_true_font_by_char, hc0, hcs]
        obtain ⟨pnd, psub⟩ := keys_primaryAssign_spec tf cs chars
        obtain ⟨d, s', hok, hnd', hsub', hform, hcomp⟩ :=
          afterPrimary_spec env s r hnc hclean (primaryAssign tf cs chars) pnd psub
        refine ⟨d, s', by rw [hunf]; exact hok, hnd',
          fun c => ⟨fun h => ?_, fun h => hcomp c h⟩⟩
        exact hsub' c (mem_keys_iff_alookup_isSome.mpr h)

/-- C3: after a successful `get_true_font` call, a second call whose
ReducedStyle items tuple equals the first call's hits the cache: it returns
the very value the cache holds (the shallow counterpart of object identity),
leaves the state unchanged, and issues zero matching-service queries. -/
theorem get_true_font_idempotent (env : FcEnv) (s : FCState) (r : ReducedStyle)
    (v : Option CssStyle) (s' : FCState) (q : Nat)
    (h : get_true_font env s r = .ok (v, s', q)) :
    get_true_font env s' r = .ok (v, s', 0) := by
  rcases hc : alookup r s.truefonts with _ | tf
  · simp only [get_true_font, hc] at h
    rcases hf : fcfound_to_css (env.fontMatch (css_to_fc_pattern r)) with e | otf
    · rw [hf] at h
      exact absurd h (by simp)
    · rw [hf] at h
      rcases otf with _ | tf2
      · exact absurd h (by simp)
      · simp only [Except.ok.injEq, Prod.mk.injEq] at h
        obtain ⟨h1, h2, h3⟩ := h
        subst h1
        subst h2
        simp only [get_true_font, alookup_dictInsert_self]
  · simp only [get_true_font, hc] at h
    simp only [Except.ok.injEq, Prod.mk.injEq] at h
    obtain ⟨h1, h2, h3⟩ := h
    subst h1
    subst h2
    simp only [get_true_font, hc]

theorem get_true_font_idempotent_witness :
    get_true_font exEnv FCState.empty exStyle = .ok (some exFoundCss, exS1, 1) ∧
    get_true_font exEnv exS1 exStyle = .ok (some exFoundCss, exS1, 0) :=
  ⟨by rfl,
    get_true_font_idempotent exEnv FCState.empty exStyle (some exFoundCss) exS1 1
      (by rfl)⟩

/-- C4 counterexample: with a best match whose FAMILY property is
tuple-valued, `fcfound_to_css` does return `none`, but `get_true_font` does
not hand that `none` to its caller: it stores it and then raises
`AttributeError` at `tuple(truefont.items())`, so an error does escape
`get_true_font`, contradicting the claim. -/
theorem get_true_font_ambiguous_counterexample :
    fcfound_to_css exAmbFace = .ok none ∧
    get_true_font exAmbEnv FCState.empty exStyle =
      .error (.attributeError, ⟨[(exStyle, none)], [(exStyle, exAmbFace)], []⟩) :=
  ⟨by rfl, by rfl⟩

/-- C4 (amended): whenever the uncached best-match result carries a
list-valued attribute for any of family, weight, slant or width,
`fcfound_to_css` returns `none` for the style, but `get_true_font` then
stores that `none` in `truefonts` (and the raw face in `truefontsfc`) and
raises `AttributeError` instead of returning `none` to the caller. -/
theorem get_true_font_ambiguous_raises (env : FcEnv) (s : FCState) (r : ReducedStyle)
    (hmiss : alookup r s.truefonts = none)
    (hamb : (env.fontMatch (css_to_fc_pattern r)).family = .listval ∨
      (env.fontMatch (css_to_fc_pattern r)).weight = .listval ∨
      (env.fontMatch (css_to_fc_pattern r)).slant = .listval ∨
      (env.fontMatch (css_to_fc_pattern r)).width = .listval) :
    fcfound_to_css (env.fontMatch (css_to_fc_pattern r)) = .ok none ∧
    get_true_font env s r =
      .error (.attributeError,
        { s with truefonts := dictInsert r none s.truefonts
                 truefontsfc :=
                  dictInsert r (env.fontMatch (css_to_fc_pattern r)) s.truefontsfc }) := by
  have hcss : fcfound_to_css (env.fontMatch (css_to_fc_pattern r)) = .ok none := by
    rcases h1 : (env.fontMatch (css_to_fc_pattern r)).family with fam | _ <;>
      rcases h2 : (env.fontMatch (css_to_fc_pattern r)).weight with w | _ <;>
      rcases h3 : (env.fontMatch (css_to_fc_pattern r)).slant with sl | _ <;>
      rcases h4 : (env.fontMatch (css_to_fc_pattern r)).width with wd | _ <;>
      simp_all [fcfound_to_css]
  refine ⟨hcss, ?_⟩
  simp only [get_true_font, hmiss, hcss]

theorem get_true_font_ambiguous_raises_witness :
    alookup exStyle FCState.empty.truefonts = none ∧
    ((exAmbEnv.fontMatch (css_to_fc_pattern exStyle)).family = .listval ∨
      (exAmbEnv.fontMatch (css_to_fc_pattern exStyle)).weight = .listval ∨
      (exAmbEnv.fontMatch (css_to_fc_pattern exStyle)).slant = .listval ∨
      (exAmbEnv.fontMatch (css_to_fc_pattern exStyle)).width = .listval) ∧
    (fcfound_to_css (exAmbEnv.fontMatch (css_to_fc_pattern exStyle)) = .ok none ∧
    get_true_font exAmbEnv FCState.empty exStyle =
      .error (.attributeError,
        { FCState.empty with
            truefonts := dictInsert exStyle none FCState.empty.truefonts
            truefontsfc :=
              dictInsert exStyle (exAmbEnv.fontMatch (css_to_fc_pattern exStyle))
                FCState.empty.truefontsfc })) :=
  ⟨by rfl, Or.inl (by rfl),
    get_true_font_ambiguous_raises exAmbEnv FCState.empty exStyle (by rfl)
      (Or.inl (by rfl))⟩

theorem get_true_font_by_char_keys_witness :
    ([65, 66, 67] : List Nat).Nodup ∧
    primaryOk exState exStyle = true ∧
    (∀ f ∈ exEnv.fontSort (css_to_fc_pattern exStyle), cleanFace f = true) ∧
    (∃ d s', get_true_font_by_char exEnv exState exStyle [65, 66, 67] = .ok (d, s') ∧
      (keys d).Nodup ∧ ∀ c, (alookup c d).isSome ↔ c ∈ ([65, 66, 67] : List Nat)) :=
  ⟨by decide, by decide, by decide,
    get_true_font_by_char_keys exEnv exState exStyle [65, 66, 67]
      (by decide) (by decide) (by decide)⟩

/-- C6: on any non-empty numeric-keyed table with distinct keys,
`nearest_val` returns the value of the key with the minimum absolute
difference from the query, ties broken by the first key in iteration order
attaining that minimum; in particular on `{100: a, 300: b, 500: c}` the query
180 returns `a` and the query 250 returns `b`. -/
theorem nearest_val_min_first :
    (∀ {α : Type} (l : List (Int × α)) (q : Int), l ≠ [] → (keys l).Nodup →
      ∃ (l1 : List (Int × α)) (k : Int) (v : α) (l2 : List (Int × α)),
        nearest_val l q = some v ∧ l = l1 ++ (k, v) :: l2 ∧
        (∀ p ∈ l, |k - q| ≤ |p.1 - q|) ∧
        (∀ p ∈ l1, |k - q| < |p.1 - q|)) ∧
    nearest_val [((100 : Int), "a"), (300, "b"), (500, "c")] 180 = some "a" ∧
    nearest_val [((100 : Int), "a"), (300, "b"), (500, "c")] 250 = some "b" := by
  refine ⟨?_, by decide, by decide⟩
  intro α l q hne hnd
  rcases l with _ | ⟨⟨k0, v0⟩, rest⟩
  · exact absurd rfl hne
  obtain ⟨m1, m2, hdec, hmin, hstrict⟩ :=
    pyMin_spec (fun x => |x - q|) k0 (keys rest)
  have hkeys : keys ((k0, v0) :: rest) =
      m1 ++ pyMin (fun x => |x - q|) k0 (keys rest) :: m2 := hdec
  have hlen : m1.length < ((k0, v0) :: rest).length := by
    rw [length_eq_keys_length, hkeys]
    simp
  have hdecomp : (k0, v0) :: rest =
      ((k0, v0) :: rest).take m1.length ++
        ((k0, v0) :: rest)[m1.length] :: ((k0, v0) :: rest).drop (m1.length + 1) := by
    rw [← List.drop_eq_getElem_cons hlen, List.take_append_drop]
  have hk1 : keys (((k0, v0) :: rest).take m1.length) = m1 := by
    have h1 : keys (((k0, v0) :: rest).take m1.length) =
        (keys ((k0, v0) :: rest)).take m1.length := by
      simp [keys, List.map_take]
    rw [h1, hkeys, List.take_left]
  have hfst : (((k0, v0) :: rest)[m1.length]).1 = pyMin (fun x => |x - q|) k0 (keys rest) := by
    have h5 : keys ((k0, v0) :: rest) =
        keys (((k0, v0) :: rest).take m1.length) ++
          (((k0, v0) :: rest)[m1.length]).1 ::
            keys (((k0, v0) :: rest).drop (m1.length + 1)) := by
      conv_lhs => rw [hdecomp]
      simp [keys]
    rw [hk1, hkeys] at h5
    have h6 := List.append_cancel_left h5
    injection h6.symm with h7
  have hval : nearest_val ((k0, v0) :: rest) q = some ((((k0, v0) :: rest)[m1.length]).2) := by
    show alookup (pyMin (fun x => |x - q|) k0 (keys rest)) ((k0, v0) :: rest) = _
    apply alookup_of_decomp hnd
    conv_lhs => rw [hdecomp]
    rw [← hfst]
  refine ⟨((k0, v0) :: rest).take m1.length,
    pyMin (fun x => |x - q|) k0 (keys rest),
    (((k0, v0) :: rest)[m1.length]).2,
    ((k0, v0) :: rest).drop (m1.length + 1), hval, ?_, ?_, ?_⟩
  · conv_lhs => rw [hdecomp]
    rw [← hfst]
  · intro p hp
    have hpk : p.1 ∈ keys ((k0, v0) :: rest) := List.mem_map_of_mem Prod.fst hp
    exact hmin p.1 hpk
  · intro p hp
    have hpk : p.1 ∈ m1 := by
      rw [← hk1]
      exact List.mem_map_of_mem Prod.fst hp
    exact hstrict p.1 hpk

theorem nearest_val_min_first_witness :
    ([((10 : Int), "x"), (20, "y"), (30, "y")] ≠ []) ∧
    (keys [((10 : Int), "x"), (20, "y"), (30, "y")]).Nodup ∧
    ∃ (l1 : List (Int × String)) (k : Int) (v : String) (l2 : List (Int × String)),
      nearest_val [((10 : Int), "x"), (20, "y"), (30, "y")] 24 = some v ∧
      [((10 : Int), "x"), (20, "y"), (30, "y")] = l1 ++ (k, v) :: l2 ∧
      (∀ p ∈ [((10 : Int), "x"), (20, "y"), (30, "y")], |k - 24| ≤ |p.1 - 24|) ∧
      (∀ p ∈ l1, |k - 24| < |p.1 - 24|) :=
  ⟨by decide, by decide,
    nearest_val_min_first.1 [((10 : Int), "x"), (20, "y"), (30, "y")] 24
      (by decide) (by decide)⟩

/-- C5: whenever the source ascent and descent (typo values when OS/2 is
present, else hhea values, as absolute design-unit fractions) have a
positive sum, `find_font_metrics` normalizes both by that sum so the stored
ascent plus descent equals 1 (exactly, in this `ℚ` embedding of the source's
float arithmetic), while `ascent_max` and `descent_max` remain the
unnormalized hhea-derived values. -/
theorem find_font_metrics_normalized (font : FTTables)
    (hpos : 0 < (match font.os2 with
      | some os2 => |(os2.sTypoAscender : ℚ) / (font.unitsPerEm : ℚ)| +
          |(os2.sTypoDescender : ℚ) / (font.unitsPerEm : ℚ)|
      | none => |(font.hheaAscent : ℚ) / (font.unitsPerEm : ℚ)| +
          |(font.hheaDescent : ℚ) / (font.unitsPerEm : ℚ)|)) :
    (find_font_metrics font).ascent + (find_font_metrics font).descent = 1 ∧
    (find_font_metrics font).ascent_max =
      |(font.hheaAscent : ℚ) / (font.unitsPerEm : ℚ)| ∧
    (find_font_metrics font).descent_max =
      |(font.hheaDescent : ℚ) / (font.unitsPerEm : ℚ)| := by
  have key : ∀ a d : ℚ, 0 < a + d →
      (if a + d > 0 then a / (a + d) else a) +
        (if a + d > 0 then d / (a + d) else d) = 1 := by
    intro a d h
    rw [if_pos h, if_pos h, div_add_div_same, div_self (ne_of_gt h)]
  refine ⟨?_, by simp only [find_font_metrics], by simp only [find_font_metrics]⟩
  rcases h : font.os2 with _ | os2
  · rw [h] at hpos
    simp only [find_font_metrics, h]
    exact key _ _ hpos
  · rw [h] at hpos
    simp only [find_font_metrics, h]
    exact key _ _ hpos

theorem find_font_metrics_normalized_witness :
    (0 : ℚ) < |((800 : Int) : ℚ) / ((1000 : Int) : ℚ)| +
      |((-200 : Int) : ℚ) / ((1000 : Int) : ℚ)| ∧
    ((find_font_metrics exFontMetrics).ascent +
        (find_font_metrics exFontMetrics).descent = 1 ∧
      (find_font_metrics exFontMetrics).ascent_max =
        |((900 : Int) : ℚ) / ((1000 : Int) : ℚ)| ∧
      (find_font_metrics exFontMetrics).descent_max =
        |((-300 : Int) : ℚ) / ((1000 : Int) : ℚ)|) :=
  ⟨by positivity, find_font_metrics_normalized exFontMetrics
    (by show (0 : ℚ) < |((800 : Int) : ℚ) / ((1000 : Int) : ℚ)| +
        |((-200 : Int) : ℚ) / ((1000 : Int) : ℚ)|
        positivity)⟩

/-- C7: a face with no usable character map makes `get_char_advances` return
`none` for all three outputs, whatever characters and pairs are requested. -/
theorem get_char_advances_no_cmap (font : FTTables) (chars : List Nat)
    (pchars : List (Nat × List Nat)) (h : font.cmap = none) :
    get_char_advances font chars pchars = .ok (none, none, none) := by
  unfold get_char_advances
  rw [h]

theorem get_char_advances_no_cmap_witness :
    exFontMetrics.cmap = none ∧
    get_char_advances exFontMetrics [65, 66] [(65, [66])] = .ok (none, none, none) :=
  ⟨rfl, get_char_advances_no_cmap exFontMetrics [65, 66] [(65, [66])] rfl⟩

theorem charAdvStep_fst (font : FTTables) (cm : List (Nat × String))
    (p : List (Nat × Option ℚ) × List (Nat × List ℚ)) (k c : Nat) :
    alookup c (charAdvStep font cm p k).1 =
      if c = k ∧ advOf font cm k ≠ none then advOf font cm k else alookup c p.1 := by
  unfold charAdvStep advOf
  rcases h1 : alookup k cm with _ | g
  · simp only [h1]
    rw [alookup_dictInsert]
    by_cases hck : k = c
    · subst hck
      simp
    · rw [if_neg hck, if_neg (by rintro ⟨hh, _⟩; exact hck hh.symm)]
  · simp only [h1]
    rcases h2 : alookup g font.hmtxMetrics with _ | aw
    · simp only [h2]
      simp
    · simp only [h2]
      rw [alookup_dictInsert]
      by_cases hck : k = c
      · subst hck
        simp
      · rw [if_neg hck, if_neg (by rintro ⟨hh, _⟩; exact hck hh.symm)]

theorem charAdvStep_snd (font : FTTables) (cm : List (Nat × String))
    (p : List (Nat × Option ℚ) × List (Nat × List ℚ)) (k c : Nat) :
    alookup c (charAdvStep font cm p k).2 =
      if c = k ∧ bbOf font cm k ≠ none then bbOf font cm k else alookup c p.2 := by
  unfold charAdvStep bbOf
  rcases h1 : alookup k cm with _ | g
  · simp only [h1]
    simp
  · simp only [h1]
    rcases h2 : font.glyf.bind (fun t => alookup g t) with _ | glyph
    · simp only [h2]
      rw [alookup_dictInsert]
      by_cases hck : k = c
      · subst hck
        simp
      · rw [if_neg hck, if_neg (by rintro ⟨hh, _⟩; exact hck hh.symm)]
    · simp only [h2]
      rw [alookup_dictInsert]
      by_cases hck : k = c
      · subst hck
        simp
      · rw [if_neg hck, if_neg (by rintro ⟨hh, _⟩; exact hck hh.symm)]

theorem charFold_fst (font : FTTables) (cm : List (Nat × String))
    (chars : List Nat) (c : Nat) :
    ∀ p0 : List (Nat × Option ℚ) × List (Nat × List ℚ),
      alookup c (chars.foldl (charAdvStep font cm) p0).1 =
        if c ∈ chars ∧ advOf font cm c ≠ none then advOf font cm c
        else alookup c p0.1 := by
  induction chars with
  | nil => intro p0; simp
  | cons k rest ih =>
    intro p0
    rw [List.foldl_cons, ih]
    rw [charAdvStep_fst]
    by_cases hck : c = k
    · subst hck
      by_cases hc : advOf font cm c ≠ none
      · by_cases hcr : c ∈ rest <;> simp [hcr, hc]
      · simp [hc]
    · simp [List.mem_cons, hck]

theorem charFold_snd (font : FTTables) (cm : List (Nat × String))
    (chars : List Nat) (c : Nat) :
    ∀ p0 : List (Nat × Option ℚ) × List (Nat × List ℚ),
      alookup c (chars.foldl (charAdvStep font cm) p0).2 =
        if c ∈ chars ∧ bbOf font cm c ≠ none then bbOf font cm c
        else alookup c p0.2 := by
  induction chars with
  | nil => intro p0; simp
  | cons k rest ih =>
    intro p0
    rw [List.foldl_cons, ih]
    rw [charAdvStep_snd]
    by_cases hck : c = k
    · subst hck
      by_cases hc : bbOf font cm c ≠ none
      · by_cases hcr : c ∈ rest <;> simp [hcr, hc]
      · simp [hc]
    · simp [List.mem_cons, hck]

theorem pairAdjust_of_safe (font : FTTables) (cm : List (Nat × String))
    (ligs : List (List String × String)) (pc c : Nat)
    (h : pairSafe font cm ligs pc c = true) :
    pairAdjust font cm ligs pc c = .ok (pairValue font cm ligs pc c) := by
  unfold pairAdjust pairValue
  unfold pairSafe at h
  rcases hlig : ligPairLookup ligs (alookup pc cm) (alookup c cm) with _ | lg
  · simp only [hlig]
  · rw [hlig] at h
    have h' : ((alookup lg font.hmtxMetrics).isSome &&
        ((alookup pc cm).bind (fun g => alookup g font.hmtxMetrics)).isSome &&
        ((alookup c cm).bind (fun g => alookup g font.hmtxMetrics)).isSome) = true := h
    have hs : (alookup lg font.hmtxMetrics).isSome ∧
        ((alookup pc cm).bind (fun g => alookup g font.hmtxMetrics)).isSome ∧
        ((alookup c cm).bind (fun g => alookup g font.hmtxMetrics)).isSome := by
      simpa [Bool.and_eq_true, and_assoc] using h'
    obtain ⟨awlig, h1⟩ := Option.isSome_iff_exists.mp hs.1
    obtain ⟨aw1, h2⟩ := Option.isSome_iff_exists.mp hs.2.1
    obtain ⟨aw2, h3⟩ := Option.isSome_iff_exists.mp hs.2.2
    simp only [hlig, h1, h2, h3, Option.getD_some]

theorem pairInner_spec (font : FTTables) (cm : List (Nat × String))
    (ligs : List (List String × String)) (c : Nat) (pcs : List Nat)
    (hsafe : ∀ pc ∈ pcs, pairSafe font cm ligs pc c = true) :
    ∀ d0 : List ((Nat × Nat) × ℚ),
      ∃ d, pairInner font cm ligs c pcs d0 = .ok d ∧
        (∀ k, alookup k d = alookup k d0 ∨
          alookup k d = some (pairValue font cm ligs k.1 k.2)) ∧
        (∀ pc ∈ pcs, alookup (pc, c) d = some (pairValue font cm ligs pc c)) := by
  induction pcs with
  | nil =>
    intro d0
    exact ⟨d0, rfl, fun k => Or.inl rfl, by simp⟩
  | cons pc rest ih =>
    intro d0
    have hs := hsafe pc (List.mem_cons_self _ _)
    obtain ⟨d, hok, hor, hcov⟩ :=
      ih (fun q hq => hsafe q (List.mem_cons_of_mem _ hq))
        (dictInsert (pc, c) (pairValue font cm ligs pc c) d0)
    refine ⟨d, ?_, ?_, ?_⟩
    · unfold pairInner
      rw [pairAdjust_of_safe font cm ligs pc c hs]
      exact hok
    · intro k
      rcases hor k with h | h
      · rw [h, alookup_dictInsert]
        by_cases hk : (pc, c) = k
        · subst hk
          exact Or.inr (by simp)
        · rw [if_neg hk]
          exact Or.inl rfl
      · exact Or.inr h
    · intro q hq
      rcases List.mem_cons.mp hq with rfl | hq2
      · rcases hor (q, c) with h | h
        · rw [h, alookup_dictInsert_self]
        · exact h
      · exact hcov q hq2

theorem pairLoop_spec (font : FTTables) (cm : List (Nat × String))
    (ligs : List (List String × String)) (pchars : List (Nat × List Nat))
    (hsafe : ∀ b ∈ pchars, ∀ pc ∈ b.2, pairSafe font cm ligs pc b.1 = true) :
    ∀ d0 : List ((Nat × Nat) × ℚ),
      ∃ d, pairLoop font cm ligs pchars d0 = .ok d ∧
        (∀ k, alookup k d = alookup k d0 ∨
          alookup k d = some (pairValue font cm ligs k.1 k.2)) ∧
        (∀ b ∈ pchars, ∀ pc ∈ b.2,
          alookup (pc, b.1) d = some (pairValue font cm ligs pc b.1)) := by
  induction pchars with
  | nil =>
    intro d0
    exact ⟨d0, rfl, fun k => Or.inl rfl, by simp⟩
  | cons b rest ih =>
    intro d0
    obtain ⟨c, pcs⟩ := b
    obtain ⟨d1, hok1, hor1, hcov1⟩ :=
      pairInner_spec font cm ligs c pcs
        (fun pc hpc => hsafe (c, pcs) (List.mem_cons_self _ _) pc hpc) d0
    obtain ⟨d, hok, hor, hcov⟩ :=
      ih (fun b2 hb2 pc hpc => hsafe b2 (List.mem_cons_of_mem _ hb2) pc hpc) d1
    refine ⟨d, ?_, ?_, ?_⟩
    · unfold pairLoop
      rw [hok1]
      exact hok
    · intro k
      rcases hor k with h | h
      · rw [h]
        exact hor1 k
      · exact Or.inr h
    · intro b2 hb2 pc2 hpc2
      rcases List.mem_cons.mp hb2 with rfl | hb3
      · rcases hor (pc2, c) with h | h
        · rw [h]
          exact hcov1 pc2 hpc2
        · exact h
      · exact hcov b2 hb3 pc2 hpc2

/-- C2: with a usable character map and `hmtx`-complete pairs, the pair
adjustment for each requested preceding-character/character pair is: the
ligature glyph's advance minus the two components' advances over
`unitsPerEm` whenever the ligature table has an entry for the ordered glyph
pair (regardless of any kern entry for the same pair); otherwise the first
value found scanning the kern subtables in order, over `unitsPerEm`;
otherwise 0. -/
theorem get_char_advances_ligature_precedence (font : FTTables)
    (cm : List (Nat × String)) (chars : List Nat) (pchars : List (Nat × List Nat))
    (c : Nat) (pcs : List Nat) (pc : Nat)
    (hcm : font.cmap = some cm)
    (hb : (c, pcs) ∈ pchars) (hpc : pc ∈ pcs)
    (hsafe : ∀ b ∈ pchars, ∀ q ∈ b.2,
      pairSafe font cm (buildLigatures font.gsub) q b.1 = true) :
    ∃ advs dadvs bbs,
      get_char_advances font chars pchars = .ok (some advs, some dadvs, some bbs) ∧
      alookup (pc, c) dadvs =
        some (pairValue font cm (buildLigatures font.gsub) pc c) ∧
      (∀ g1 g2 lg, alookup pc cm = some g1 → alookup c cm = some g2 →
        alookup [g1, g2] (buildLigatures font.gsub) = some lg →
        ∀ awlig lsb0 aw1 lsb1 aw2 lsb2,
          alookup lg font.hmtxMetrics = some (awlig, lsb0) →
          alookup g1 font.hmtxMetrics = some (aw1, lsb1) →
          alookup g2 font.hmtxMetrics = some (aw2, lsb2) →
          pairValue font cm (buildLigatures font.gsub) pc c =
            ((awlig - aw1 - aw2 : Int) : ℚ) / (font.unitsPerEm : ℚ)) ∧
      (∀ kv, ligPairLookup (buildLigatures font.gsub)
          (alookup pc cm) (alookup c cm) = none →
        (match font.kern with
          | some kts => firstKern kts (alookup pc cm) (alookup c cm)
          | none => none) = some kv →
        pairValue font cm (buildLigatures font.gsub) pc c =
          ((kv : Int) : ℚ) / (font.unitsPerEm : ℚ)) ∧
      (ligPairLookup (buildLigatures font.gsub)
          (alookup pc cm) (alookup c cm) = none →
        (match font.kern with
          | some kts => firstKern kts (alookup pc cm) (alookup c cm)
          | none => none) = none →
        pairValue font cm (buildLigatures font.gsub) pc c = 0) := by
  obtain ⟨dadvs, hok, hor, hcov⟩ :=
    pairLoop_spec font cm (buildLigatures font.gsub) pchars hsafe []
  refine ⟨(chars.foldl (charAdvStep font cm) ([], [])).1, dadvs,
    (chars.foldl (charAdvStep font cm) ([], [])).2, ?_, ?_, ?_, ?_, ?_⟩
  · unfold get_char_advances
    simp only [hcm]
    rw [hok]
  · exact hcov (c, pcs) hb pc hpc
  · intro g1 g2 lg hg1 hg2 hlg awlig lsb0 aw1 lsb1 aw2 lsb2 ha0 ha1 ha2
    unfold pairValue
    have hlig : ligPairLookup (buildLigatures font.gsub)
        (alookup pc cm) (alookup c cm) = some lg := by
      unfold ligPairLookup
      rw [hg1, hg2]
      exact hlg
    rw [hlig, hg1, hg2]
    simp only [Option.some_bind, ha0, ha1, ha2, Option.getD_some]
  · intro kv hlig hkv
    unfold pairValue
    rw [hlig, hkv]
    rfl
  · intro hlig hkv
    unfold pairValue
    rw [hlig, hkv]
    simp

theorem get_char_advances_ligature_precedence_witness :
    exLigFont.cmap = some [(65, "A"), (86, "V")] ∧
    ((86 : Nat), [(65 : Nat)]) ∈ [((86 : Nat), [(65 : Nat)])] ∧
    (65 : Nat) ∈ [(65 : Nat)] ∧
    (∀ b ∈ [((86 : Nat), [(65 : Nat)])], ∀ q ∈ b.2,
      pairSafe exLigFont [(65, "A"), (86, "V")] (buildLigatures exLigFont.gsub)
        q b.1 = true) ∧
    (∃ advs dadvs bbs,
      get_char_advances exLigFont [65, 86] [(86, [65])] =
        .ok (some advs, some dadvs, some bbs) ∧
      alookup ((65 : Nat), (86 : Nat)) dadvs =
        some (pairValue exLigFont [(65, "A"), (86, "V")]
          (buildLigatures exLigFont.gsub) 65 86) ∧
      (∀ g1 g2 lg, alookup (65 : Nat) [(65, "A"), (86, "V")] = some g1 →
        alookup (86 : Nat) [(65, "A"), (86, "V")] = some g2 →
        alookup [g1, g2] (buildLigatures exLigFont.gsub) = some lg →
        ∀ awlig lsb0 aw1 lsb1 aw2 lsb2,
          alookup lg exLigFont.hmtxMetrics = some (awlig, lsb0) →
          alookup g1 exLigFont.hmtxMetrics = some (aw1, lsb1) →
          alookup g2 exLigFont.hmtxMetrics = some (aw2, lsb2) →
          pairValue exLigFont [(65, "A"), (86, "V")]
            (buildLigatures exLigFont.gsub) 65 86 =
            ((awlig - aw1 - aw2 : Int) : ℚ) / (exLigFont.unitsPerEm : ℚ)) ∧
      (∀ kv, ligPairLookup (buildLigatures exLigFont.gsub)
          (alookup (65 : Nat) [(65, "A"), (86, "V")])
          (alookup (86 : Nat) [(65, "A"), (86, "V")]) = none →
        (match exLigFont.kern with
          | some kts => firstKern kts (alookup (65 : Nat) [(65, "A"), (86, "V")])
              (alookup (86 : Nat) [(65, "A"), (86, "V")])
          | none => none) = some kv →
        pairValue exLigFont [(65, "A"), (86, "V")]
          (buildLigatures exLigFont.gsub) 65 86 =
          ((kv : Int) : ℚ) / (exLigFont.unitsPerEm : ℚ)) ∧
      (ligPairLookup (buildLigatures exLigFont.gsub)
          (alookup (65 : Nat) [(65, "A"), (86, "V")])
          (alookup (86 : Nat) [(65, "A"), (86, "V")]) = none →
        (match exLigFont.kern with
          | some kts => firstKern kts (alookup (65 : Nat) [(65, "A"), (86, "V")])
              (alookup (86 : Nat) [(65, "A"), (86, "V")])
          | none => none) = none →
        pairValue exLigFont [(65, "A"), (86, "V")]
          (buildLigatures exLigFont.gsub) 65 86 = 0)) :=
  ⟨rfl, by decide, by decide, by decide,
    get_char_advances_ligature_precedence exLigFont [(65, "A"), (86, "V")]
      [65, 86] [(86, [65])] 86 [65] 65 rfl (by decide) (by decide) (by decide)⟩

/-- C10: on a face with a usable character map, a requested character whose
glyph is mapped but absent from `hmtx` gets no advance entry at all (though
it does get an ink box), while a requested character with no cmap entry gets
an advance entry of `none` and no ink-box entry. -/
theorem get_char_advances_missing_entries (font : FTTables)
    (cm : List (Nat × String)) (chars : List Nat) (pchars : List (Nat × List Nat))
    (c1 c2 : Nat) (g : String)
    (hcm : font.cmap = some cm)
    (hsafe : ∀ b ∈ pchars, ∀ q ∈ b.2,
      pairSafe font cm (buildLigatures font.gsub) q b.1 = true)
    (h1 : c1 ∈ chars) (h2 : c2 ∈ chars)
    (hg : alookup c1 cm = some g) (hmiss : alookup g font.hmtxMetrics = none)
    (hun : alookup c2 cm = none) :
    ∃ advs dadvs bbs,
      get_char_advances font chars pchars = .ok (some advs, some dadvs, some bbs) ∧
      alookup c1 advs = none ∧ (alookup c1 bbs).isSome ∧
      alookup c2 advs = some none ∧ alookup c2 bbs = none := by
  obtain ⟨dadvs, hok, hor, hcov⟩ :=
    pairLoop_spec font cm (buildLigatures font.gsub) pchars hsafe []
  clear hor
  have hadv1 : advOf font cm c1 = none := by
    simp only [advOf, hg, hmiss]
  have hbb1 : (bbOf font cm c1).isSome := by
    simp only [bbOf, hg]
    rcases hgl : font.glyf.bind (fun t => alookup g t) with _ | glyph <;> simp [hgl]
  have hadv2 : advOf font cm c2 = some none := by
    simp only [advOf, hun]
  have hbb2 : bbOf font cm c2 = none := by
    simp only [bbOf, hun]
  refine ⟨(chars.foldl (charAdvStep font cm) ([], [])).1, dadvs,
    (chars.foldl (charAdvStep font cm) ([], [])).2, ?_, ?_, ?_, ?_, ?_⟩
  · unfold get_char_advances
    simp only [hcm]
    rw [hok]
  · rw [charFold_fst, if_neg (by rintro ⟨_, hne⟩; exact hne hadv1)]
    rfl
  · rw [charFold_snd, if_pos ⟨h1, Option.isSome_iff_ne_none.mp hbb1⟩]
    exact hbb1
  · rw [charFold_fst, if_pos ⟨h2, by rw [hadv2]; exact Option.noConfusion⟩]
    exact hadv2
  · rw [charFold_snd, if_neg (by rintro ⟨_, hne⟩; exact hne hbb2)]
    rfl

theorem get_char_advances_missing_entries_witness :
    exMissFont.cmap = some [(65, "A"), (66, "B")] ∧
    (66 : Nat) ∈ ([65, 66, 67] : List Nat) ∧ (67 : Nat) ∈ ([65, 66, 67] : List Nat) ∧
    alookup (66 : Nat) [(65, "A"), (66, "B")] = some "B" ∧
    alookup "B" exMissFont.hmtxMetrics = none ∧
    alookup (67 : Nat) [(65, "A"), (66, "B")] = none ∧
    (∃ advs dadvs bbs,
      get_char_advances exMissFont [65, 66, 67] [] =
        .ok (some advs, some dadvs, some bbs) ∧
      alookup (66 : Nat) advs = none ∧ (alookup (66 : Nat) bbs).isSome ∧
      alookup (67 : Nat) advs = some none ∧ alookup (67 : Nat) bbs = none) :=
  ⟨rfl, by decide, by decide, by decide, by decide, by decide,
    get_char_advances_missing_entries exMissFont [(65, "A"), (66, "B")]
      [65, 66, 67] [] 66 67 "B" rfl (by simp) (by decide) (by decide)
      (by decide) (by decide) (by decide)⟩

theorem scoreOf_le_three (fcwgt fcwdt fcsln : Int) (sf : SubFace) :
    scoreOf fcwgt fcwdt fcsln sf ≤ 3 := by
  unfold scoreOf
  split_ifs <;> omega

theorem count3_eq (b1 b2 b3 : Bool) :
    ([b1, b2, b3].count true) =
      (if b1 = true then 1 else 0) + (if b2 = true then 1 else 0) +
        (if b3 = true then 1 else 0) := by
  cases b1 <;> cases b2 <;> cases b3 <;> rfl

theorem subface_matches_count (fcwgt fcwdt fcsln : Int) (sf : SubFace)
    (hw : (alookup sf.usWidthClass OS2WDT_to_FCWDT).isSome) :
    ∃ m, subface_matches fcwgt fcwdt fcsln sf = .ok m ∧
      m.count true = scoreOf fcwgt fcwdt fcsln sf := by
  obtain ⟨w, hw2⟩ := Option.isSome_iff_exists.mp hw
  refine ⟨_, by unfold subface_matches; rw [hw2], ?_⟩
  rw [count3_eq]
  unfold scoreOf
  rw [hw2]
  simp only [decide_eq_true_eq, Option.some.injEq]

theorem foldl_max_mem (s0 : Nat) (srest : List Nat) :
    srest.foldl max s0 ∈ s0 :: srest := by
  induction srest generalizing s0 with
  | nil => simp
  | cons y ys ih =>
    rw [List.foldl_cons]
    rcases List.mem_cons.mp (ih (max s0 y)) with h | h
    · rw [h]
      rcases max_choice s0 y with h2 | h2 <;> simp [h2]
    · simp [h]

theorem le_foldl_max (s0 : Nat) (srest : List Nat) :
    ∀ x ∈ s0 :: srest, x ≤ srest.foldl max s0 := by
  induction srest generalizing s0 with
  | nil =>
    intro x hx
    have : x = s0 := by simpa using hx
    simp [this]
  | cons y ys ih =>
    intro x hx
    rw [List.foldl_cons]
    rcases List.mem_cons.mp hx with rfl | hx2
    · exact le_trans (Nat.le_max_left x y) (ih (max x y) _ (List.mem_cons_self _ _))
    · rcases List.mem_cons.mp hx2 with rfl | hx3
      · exact le_trans (Nat.le_max_right s0 x) (ih (max s0 x) _ (List.mem_cons_self _ _))
      · exact ih (max s0 y) x (List.mem_cons_of_mem _ hx3)

theorem get_ne_of_lt_indexOf {l : List Nat} {a : Nat} {j : Nat}
    (hj : j < l.indexOf a) (hl : j < l.length) : l.get ⟨j, hl⟩ ≠ a := by
  induction l generalizing j with
  | nil => simp at hl
  | cons x xs ih =>
    by_cases hxa : x = a
    · rw [List.indexOf_cons_eq _ hxa] at hj
      omega
    · rw [List.indexOf_cons_ne _ hxa] at hj
      cases j with
      | zero => simpa using hxa
      | succ j2 =>
        have hj2 : j2 < xs.indexOf a := Nat.lt_of_succ_lt_succ hj
        have hl2 : j2 < xs.length := Nat.lt_of_succ_lt_succ (by simpa using hl)
        simpa using ih hj2 hl2

theorem exists_first_decomp {α : Type} {p : α → Bool} :
    ∀ l : List α, (∃ x ∈ l, p x = true) →
      ∃ l1 x l2, l = l1 ++ x :: l2 ∧ p x = true ∧ ∀ y ∈ l1, p y = false := by
  intro l
  induction l with
  | nil =>
    rintro ⟨x, hx, _⟩
    simp at hx
  | cons a rest ih =>
    rintro ⟨x, hx, hp⟩
    by_cases hpa : p a = true
    · exact ⟨[], a, rest, by simp, hpa, by simp⟩
    · have hxr : x ∈ rest := by
        rcases List.mem_cons.mp hx with rfl | h
        · exact absurd hp hpa
        · exact h
      obtain ⟨l1, y, l2, hdec, hpy, hall⟩ := ih ⟨x, hxr, hp⟩
      refine ⟨a :: l1, y, l2, by rw [List.cons_append, ← hdec], hpy, ?_⟩
      intro z hz
      rcases List.mem_cons.mp hz with rfl | hz2
      · cases hb : p z
        · rfl
        · exact absurd hb hpa
      · exact hall z hz2

theorem score_subfaces_eq_map (fcwgt fcwdt fcsln : Int) :
    ∀ sfs : List SubFace,
      (∀ sf ∈ sfs, (alookup sf.usWidthClass OS2WDT_to_FCWDT).isSome) →
      (∀ sf ∈ sfs, scoreOf fcwgt fcwdt fcsln sf ≠ 3) →
      score_subfaces fcwgt fcwdt fcsln sfs =
        .ok (sfs.map (scoreOf fcwgt fcwdt fcsln)) := by
  intro sfs
  induction sfs with
  | nil =>
    intro _ _
    rfl
  | cons sf rest ih =>
    intro hw h3
    obtain ⟨m, hm, hc⟩ :=
      subface_matches_count fcwgt fcwdt fcsln sf (hw sf (List.mem_cons_self _ _))
    simp only [score_subfaces, hm, hc]
    rw [if_neg (h3 sf (List.mem_cons_self _ _))]
    rw [ih (fun x hx => hw x (List.mem_cons_of_mem _ hx))
      (fun x hx => h3 x (List.mem_cons_of_mem _ hx))]
    simp

theorem score_subfaces_break (fcwgt fcwdt fcsln : Int) :
    ∀ (pre : List SubFace) (sf0 : SubFace) (post : List SubFace),
      (∀ sf ∈ pre, (alookup sf.usWidthClass OS2WDT_to_FCWDT).isSome) →
      (∀ sf ∈ pre, scoreOf fcwgt fcwdt fcsln sf ≠ 3) →
      (alookup sf0.usWidthClass OS2WDT_to_FCWDT).isSome →
      scoreOf fcwgt fcwdt fcsln sf0 = 3 →
      score_subfaces fcwgt fcwdt fcsln (pre ++ sf0 :: post) =
        .ok (pre.map (scoreOf fcwgt fcwdt fcsln) ++ [3]) := by
  intro pre
  induction pre with
  | nil =>
    intro sf0 post _ _ hw0 h30
    obtain ⟨m, hm, hc⟩ := subface_matches_count fcwgt fcwdt fcsln sf0 hw0
    simp only [List.nil_append, score_subfaces, hm, hc]
    rw [if_pos h30]
    simp [h30]
  | cons sf rest ih =>
    intro sf0 post hw h3 hw0 h30
    obtain ⟨m, hm, hc⟩ :=
      subface_matches_count fcwgt fcwdt fcsln sf (hw sf (List.mem_cons_self _ _))
    simp only [List.cons_append, score_subfaces, hm, hc, List.append_eq]
    rw [if_neg (h3 sf (List.mem_cons_self _ _))]
    rw [ih sf0 post (fun x hx => hw x (List.mem_cons_of_mem _ hx))
      (fun x hx => h3 x (List.mem_cons_of_mem _ hx)) hw0 h30]
    simp

/-- C8: on a non-empty collection whose sub-faces carry width classes in the
1..9 table, `font_from_fc` scores each sub-face by the three independent
boolean matches (nearest fontconfig weight equal, width enum equal, italic
flag consistent with the requested slant), selects the sub-face of highest
score with ties broken by the first index attaining the maximum, and when
every score is zero yields the first sub-face rather than failing. -/
theorem font_from_fc_best_subface (fcwgt fcwdt fcsln : Int) (sfs : List SubFace)
    (hne : sfs ≠ [])
    (hwid : ∀ sf ∈ sfs, (alookup sf.usWidthClass OS2WDT_to_FCWDT).isSome) :
    ∃ i, font_from_fc_select fcwgt fcwdt fcsln sfs = .ok i ∧
      ∃ hi : i < sfs.length,
        (∀ j, ∀ hj : j < sfs.length,
          scoreOf fcwgt fcwdt fcsln (sfs.get ⟨j, hj⟩) ≤
            scoreOf fcwgt fcwdt fcsln (sfs.get ⟨i, hi⟩)) ∧
        (∀ j, ∀ hj : j < i,
          scoreOf fcwgt fcwdt fcsln (sfs.get ⟨j, lt_trans hj hi⟩) <
            scoreOf fcwgt fcwdt fcsln (sfs.get ⟨i, hi⟩)) ∧
        ((∀ sf ∈ sfs, scoreOf fcwgt fcwdt fcsln sf = 0) → i = 0) := by
  by_cases h3 : ∃ sf ∈ sfs, scoreOf fcwgt fcwdt fcsln sf = 3
  · obtain ⟨pre, sf0, post, hdec, hp0, hpre⟩ :=
      exists_first_decomp (p := fun sf => decide (scoreOf fcwgt fcwdt fcsln sf = 3)) sfs
        (by
          obtain ⟨sf, hsf, he⟩ := h3
          exact ⟨sf, hsf, by simpa using he⟩)
    subst hdec
    have hp0' : scoreOf fcwgt fcwdt fcsln sf0 = 3 := by simpa using hp0
    have hpre' : ∀ sf ∈ pre, scoreOf fcwgt fcwdt fcsln sf ≠ 3 := by
      intro sf hsf
      simpa using hpre sf hsf
    have hwpre : ∀ sf ∈ pre, (alookup sf.usWidthClass OS2WDT_to_FCWDT).isSome :=
      fun sf hsf => hwid sf (List.mem_append_left _ hsf)
    have hw0 : (alookup sf0.usWidthClass OS2WDT_to_FCWDT).isSome :=
      hwid sf0 (List.mem_append_right _ (List.mem_cons_self _ _))
    have hsc := score_subfaces_break fcwgt fcwdt fcsln pre sf0 post hwpre hpre' hw0 hp0'
    rcases hps : pre.map (scoreOf fcwgt fcwdt fcsln) ++ [3] with _ | ⟨s0, srest⟩
    · simp at hps
    have hmax : srest.foldl max s0 = 3 := by
      have h1 : srest.foldl max s0 ∈ s0 :: srest := foldl_max_mem s0 srest
      rw [← hps] at h1
      have h2 : srest.foldl max s0 ≤ 3 := by
        rcases List.mem_append.mp h1 with h | h
        · obtain ⟨sf, _, he⟩ := List.mem_map.mp h
          rw [← he]
          exact scoreOf_le_three _ _ _ _
        · have : srest.foldl max s0 = 3 := by simpa using h
          omega
      have h4 : (3 : Nat) ≤ srest.foldl max s0 := by
        apply le_foldl_max
        rw [← hps]
        simp
      omega
    have hlen : (s0 :: srest).length - 1 = pre.length := by
      have h5 : (s0 :: srest).length = pre.length + 1 := by
        rw [← hps]
        simp
      omega
    have hsel : font_from_fc_select fcwgt fcwdt fcsln (pre ++ sf0 :: post) =
        .ok pre.length := by
      simp only [font_from_fc_select, hsc, hps]
      rw [hmax]
      simp only [if_neg (by omega : ¬(3 : Nat) < 3)]
      have h5 : (s0 :: srest).length = pre.length + 1 := by
        rw [← hps]
        simp
      simp only [List.length_cons] at h5
      simp
      omega
    have hi : pre.length < (pre ++ sf0 :: post).length := by simp
    have hgeti : (pre ++ sf0 :: post).get ⟨pre.length, hi⟩ = sf0 := by
      rw [List.get_eq_getElem, List.getElem_append_right (le_refl _)]
      simp
    refine ⟨pre.length, hsel, hi, ?_, ?_, ?_⟩
    · intro j hj
      rw [hgeti, hp0']
      exact scoreOf_le_three _ _ _ _
    · intro j hj
      have hjl : j < (pre ++ sf0 :: post).length := lt_trans hj hi
      have hget : (pre ++ sf0 :: post).get ⟨j, hjl⟩ = pre.get ⟨j, hj⟩ := by
        rw [List.get_eq_getElem, List.get_eq_getElem, List.getElem_append_left hj]
      rw [hgeti, hp0', hget]
      have hle3 := scoreOf_le_three fcwgt fcwdt fcsln (pre.get ⟨j, hj⟩)
      have hne3 := hpre' (pre.get ⟨j, hj⟩) (List.get_mem pre _ _)
      omega
    · intro hz
      have h0 := hz sf0 (List.mem_append_right _ (List.mem_cons_self _ _))
      rw [hp0'] at h0
      omega
  · push_neg at h3
    have hsc := score_subfaces_eq_map fcwgt fcwdt fcsln sfs hwid h3
    rcases sfs with _ | ⟨s, tail⟩
    · exact absurd rfl hne
    have hmaxlt : (tail.map (scoreOf fcwgt fcwdt fcsln)).foldl max
        (scoreOf fcwgt fcwdt fcsln s) < 3 := by
      have hmem : (tail.map (scoreOf fcwgt fcwdt fcsln)).foldl max
          (scoreOf fcwgt fcwdt fcsln s) ∈
          scoreOf fcwgt fcwdt fcsln s :: tail.map (scoreOf fcwgt fcwdt fcsln) :=
        foldl_max_mem _ _
      have hmem2 : (tail.map (scoreOf fcwgt fcwdt fcsln)).foldl max
          (scoreOf fcwgt fcwdt fcsln s) ∈
          (s :: tail).map (scoreOf fcwgt fcwdt fcsln) := by
        rw [List.map_cons]
        exact hmem
      obtain ⟨sf, hsf, he⟩ := List.mem_map.mp hmem2
      have hle3 := scoreOf_le_three fcwgt fcwdt fcsln sf
      have hne3 := h3 sf hsf
      omega
    have hsel : font_from_fc_select fcwgt fcwdt fcsln (s :: tail) =
        .ok (((s :: tail).map (scoreOf fcwgt fcwdt fcsln)).indexOf
          ((tail.map (scoreOf fcwgt fcwdt fcsln)).foldl max
            (scoreOf fcwgt fcwdt fcsln s))) := by
      simp only [font_from_fc_select, hsc, List.map_cons]
      rw [if_pos hmaxlt]
    have hmm : (tail.map (scoreOf fcwgt fcwdt fcsln)).foldl max
        (scoreOf fcwgt fcwdt fcsln s) ∈ (s :: tail).map (scoreOf fcwgt fcwdt fcsln) := by
      rw [List.map_cons]
      exact foldl_max_mem _ _
    have hi2 : ((s :: tail).map (scoreOf fcwgt fcwdt fcsln)).indexOf
        ((tail.map (scoreOf fcwgt fcwdt fcsln)).foldl max
          (scoreOf fcwgt fcwdt fcsln s)) <
        ((s :: tail).map (scoreOf fcwgt fcwdt fcsln)).length :=
      List.indexOf_lt_length.mpr hmm
    have hi : ((s :: tail).map (scoreOf fcwgt fcwdt fcsln)).indexOf
        ((tail.map (scoreOf fcwgt fcwdt fcsln)).foldl max
          (scoreOf fcwgt fcwdt fcsln s)) < (s :: tail).length := by
      simpa using hi2
    have hgetmap : ∀ j, ∀ hj : j < (s :: tail).length,
        ((s :: tail).map (scoreOf fcwgt fcwdt fcsln)).get ⟨j, by simpa using hj⟩ =
          scoreOf fcwgt fcwdt fcsln ((s :: tail).get ⟨j, hj⟩) := by
      intro j hj
      rw [List.get_eq_getElem, List.get_eq_getElem, List.getElem_map]
    have hSi : scoreOf fcwgt fcwdt fcsln ((s :: tail).get ⟨_, hi⟩) =
        (tail.map (scoreOf fcwgt fcwdt fcsln)).foldl max (scoreOf fcwgt fcwdt fcsln s) := by
      rw [← hgetmap _ hi]
      exact List.indexOf_get hi2
    refine ⟨_, hsel, hi, ?_, ?_, ?_⟩
    · intro j hj
      rw [hSi]
      apply le_foldl_max
      have : scoreOf fcwgt fcwdt fcsln ((s :: tail).get ⟨j, hj⟩) ∈
          (s :: tail).map (scoreOf fcwgt fcwdt fcsln) := by
        rw [← hgetmap j hj]
        exact List.get_mem _ _ _
      rw [List.map_cons] at this
      exact this
    · intro j hj
      have hjl : j < (s :: tail).length := lt_trans hj hi
      have hne2 : ((s :: tail).map (scoreOf fcwgt fcwdt fcsln)).get
          ⟨j, by simpa using hjl⟩ ≠
          (tail.map (scoreOf fcwgt fcwdt fcsln)).foldl max
            (scoreOf fcwgt fcwdt fcsln s) :=
        get_ne_of_lt_indexOf hj _
      rw [hgetmap j hjl] at hne2
      have hle : scoreOf fcwgt fcwdt fcsln ((s :: tail).get ⟨j, hjl⟩) ≤
          (tail.map (scoreOf fcwgt fcwdt fcsln)).foldl max
            (scoreOf fcwgt fcwdt fcsln s) := by
        apply le_foldl_max
        have : scoreOf fcwgt fcwdt fcsln ((s :: tail).get ⟨j, hjl⟩) ∈
            (s :: tail).map (scoreOf fcwgt fcwdt fcsln) := by
          rw [← hgetmap j hjl]
          exact List.get_mem _ _ _
        rw [List.map_cons] at this
        exact this
      rw [hSi]
      omega
    · intro hz
      by_contra hne0
      have hipos : 0 <
          ((s :: tail).map (scoreOf fcwgt fcwdt fcsln)).indexOf
            ((tail.map (scoreOf fcwgt fcwdt fcsln)).foldl max
              (scoreOf fcwgt fcwdt fcsln s)) := Nat.pos_of_ne_zero hne0
      have h0l : (0 : Nat) < (s :: tail).length := by simp
      have hne2 : ((s :: tail).map (scoreOf fcwgt fcwdt fcsln)).get
          ⟨0, by simp⟩ ≠
          (tail.map (scoreOf fcwgt fcwdt fcsln)).foldl max
            (scoreOf fcwgt fcwdt fcsln s) :=
        get_ne_of_lt_indexOf hipos _
      rw [hgetmap 0 h0l] at hne2
      have hz0 := hz ((s :: tail).get ⟨0, h0l⟩) (List.get_mem _ _ _)
      have hzi := hz ((s :: tail).get ⟨_, hi⟩) (List.get_mem _ _ _)
      rw [hzi] at hSi
      rw [hz0, ← hSi] at hne2
      exact hne2 rfl

theorem font_from_fc_best_subface_witness :
    ([exSubA, exSubB] : List SubFace) ≠ [] ∧
    (∀ sf ∈ ([exSubA, exSubB] : List SubFace),
      (alookup sf.usWidthClass OS2WDT_to_FCWDT).isSome) ∧
    (∃ i, font_from_fc_select WEIGHT_BOLD WIDTH_NORMAL SLANT_ROMAN
        [exSubA, exSubB] = .ok i ∧
      ∃ hi : i < ([exSubA, exSubB] : List SubFace).length,
        (∀ j, ∀ hj : j < ([exSubA, exSubB] : List SubFace).length,
          scoreOf WEIGHT_BOLD WIDTH_NORMAL SLANT_ROMAN
              (([exSubA, exSubB] : List SubFace).get ⟨j, hj⟩) ≤
            scoreOf WEIGHT_BOLD WIDTH_NORMAL SLANT_ROMAN
              (([exSubA, exSubB] : List SubFace).get ⟨i, hi⟩)) ∧
        (∀ j, ∀ hj : j < i,
          scoreOf WEIGHT_BOLD WIDTH_NORMAL SLANT_ROMAN
              (([exSubA, exSubB] : List SubFace).get ⟨j, lt_trans hj hi⟩) <
            scoreOf WEIGHT_BOLD WIDTH_NORMAL SLANT_ROMAN
              (([exSubA, exSubB] : List SubFace).get ⟨i, hi⟩)) ∧
        ((∀ sf ∈ ([exSubA, exSubB] : List SubFace),
          scoreOf WEIGHT_BOLD WIDTH_NORMAL SLANT_ROMAN sf = 0) → i = 0)) :=
  ⟨by decide, by decide,
    font_from_fc_best_subface WEIGHT_BOLD WIDTH_NORMAL SLANT_ROMAN
      [exSubA, exSubB] (by decide) (by decide)⟩

end FontProps
